/-
  Verification of the AdaptAE incremental autoencoder (PS-ELM-AE repository).

  The development contains two shallow embeddings of `src/models/adaptae.py`:

  * a static, shape-indexed embedding over `Matrix (Fin _) (Fin _) ℚ` used for
    the algebraic claims about the recursive-least-squares update formulas
    (`torch.linalg.pinv` is an external library routine; it enters the
    embedding as an explicit function parameter, and theorems that need its
    Moore-Penrose contract state the relevant fragment as a hypothesis);

  * a dynamically-shaped embedding over list matrices with an explicit error
    monad, used for the construction / shape-check / mode-dispatch claims,
    which mirrors the Python exception behaviour (AssertionError from
    `assert_cond`, ValueError from explicit raises, RuntimeError from
    mismatched `torch.matmul` shapes) and the exact mutation points of the
    instance fields `self.__p` and `self.__beta`.
-/
import Mathlib

open Matrix

/-! ### Static embedding of the AdaptAE model (src/models/adaptae.py) -/

/-- State of an `AdaptAE` instance: projection weights `alpha`
(`n_input_nodes × n_hidden_nodes`), projection bias `bias`
(`n_hidden_nodes`), precision matrix `p` and output weights `beta`.
Size parameters: `di` = `n_input_nodes`, `m` = `n_hidden_nodes`. -/
structure AdaptAE (di m : ℕ) where
  alpha : Matrix (Fin di) (Fin m) ℚ
  bias : Fin m → ℚ
  p : Matrix (Fin m) (Fin m) ℚ
  beta : Matrix (Fin m) (Fin di) ℚ

/-- `H = activation_func(torch.matmul(data, alpha) + bias)` with the bias
broadcast along rows.  The activation `act` is a parameter standing for
`torch.tanh`. -/
def hiddenMap {di m n : ℕ} (act : ℚ → ℚ) (alpha : Matrix (Fin di) (Fin m) ℚ)
    (bias : Fin m → ℚ) (data : Matrix (Fin n) (Fin di) ℚ) :
    Matrix (Fin n) (Fin m) ℚ :=
  Matrix.of fun i j => act ((data * alpha) i j + bias j)

/-- The hidden representation computed at the start of `init_phase`,
`seq_phase` and `predict`. -/
def AdaptAE.hidden {di m n : ℕ} (act : ℚ → ℚ) (s : AdaptAE di m)
    (data : Matrix (Fin n) (Fin di) ℚ) : Matrix (Fin n) (Fin m) ℚ :=
  hiddenMap act s.alpha s.bias data

/-- `AdaptAE.init_phase`: `p = pinv(H^T H)`, `beta = (p @ H.T) @ data`;
returns the updated state together with the returned `beta`. -/
def AdaptAE.init_phase {di m n : ℕ}
    (pinv : Matrix (Fin m) (Fin m) ℚ → Matrix (Fin m) (Fin m) ℚ)
    (act : ℚ → ℚ) (s : AdaptAE di m) (data : Matrix (Fin n) (Fin di) ℚ) :
    AdaptAE di m × Matrix (Fin m) (Fin di) ℚ :=
  let H := s.hidden act data
  let p' := pinv (Hᵀ * H)
  let pH_T := p' * Hᵀ
  let beta' := pH_T * data
  ({ s with p := p', beta := beta' }, beta')

/-- `AdaptAE.calc_p_batch`:
`p -= (p @ H.T) @ pinv(H @ (p @ H.T) + I) @ (H @ p)`.
`torch.eye(batch_size)` is the identity matrix `1`. -/
def AdaptAE.calc_p_batch {di m n : ℕ}
    (pinv : Matrix (Fin n) (Fin n) ℚ → Matrix (Fin n) (Fin n) ℚ)
    (s : AdaptAE di m) (H : Matrix (Fin n) (Fin m) ℚ) : AdaptAE di m :=
  let PH_T := s.p * Hᵀ
  let HPH_T_Inv := pinv (H * (s.p * Hᵀ) + 1)
  let HP := H * s.p
  { s with p := s.p - PH_T * HPH_T_Inv * HP }

/-- `AdaptAE.calc_beta_batch`: `beta += (p @ H.T) @ (batch - H @ beta)`,
where `p` is the current (already updated) precision matrix. -/
def AdaptAE.calc_beta_batch {di m n : ℕ} (s : AdaptAE di m)
    (batch : Matrix (Fin n) (Fin di) ℚ) (H : Matrix (Fin n) (Fin m) ℚ) :
    AdaptAE di m :=
  let THB := batch - H * s.beta
  { s with beta := s.beta + s.p * Hᵀ * THB }

/-- `AdaptAE.calc_p_sample`, receiving the column `H` (`H.T` at the call
site): `p -= ((p @ H) @ H.T @ p) / (1 + H.T @ (p @ H))`, the division being
the elementwise `torch.div` by the single entry of the `1 × 1` matrix. -/
def AdaptAE.calc_p_sample {di m : ℕ} (s : AdaptAE di m)
    (H : Matrix (Fin m) (Fin 1) ℚ) : AdaptAE di m :=
  let PH := s.p * H
  let PHH_T := PH * Hᵀ
  let PHH_TP := PHH_T * s.p
  let H_TPH := Hᵀ * (s.p * H)
  { s with p := s.p - Matrix.of fun i j => PHH_TP i j / ((1 + H_TPH) 0 0) }

/-- `AdaptAE.calc_beta_sample`, receiving the column `H`:
`beta += (p @ H) @ (sample - H.T @ beta)`. -/
def AdaptAE.calc_beta_sample {di m : ℕ} (s : AdaptAE di m)
    (sample : Matrix (Fin 1) (Fin di) ℚ) (H : Matrix (Fin m) (Fin 1) ℚ) :
    AdaptAE di m :=
  let THB := sample - Hᵀ * s.beta
  let PH_T := s.p * H
  { s with beta := s.beta + PH_T * THB }

/-- The `mode == "batch"` arm of `AdaptAE.seq_phase`: compute `H`, update `p`
via `calc_p_batch`, then update `beta` via `calc_beta_batch` (which reads the
already-updated `p`), and return the new `beta`. -/
def AdaptAE.seq_phase_batch {di m n : ℕ}
    (pinv : Matrix (Fin n) (Fin n) ℚ → Matrix (Fin n) (Fin n) ℚ)
    (act : ℚ → ℚ) (s : AdaptAE di m) (data : Matrix (Fin n) (Fin di) ℚ) :
    AdaptAE di m × Matrix (Fin m) (Fin di) ℚ :=
  let H := s.hidden act data
  let s1 := s.calc_p_batch pinv H
  let s2 := s1.calc_beta_batch data H
  (s2, s2.beta)

/-- The `mode == "sample"` arm of `AdaptAE.seq_phase`: compute `H` for the
single row, update `p` via `calc_p_sample H.T`, then `beta` via
`calc_beta_sample data H.T`, and return the new `beta`. -/
def AdaptAE.seq_phase_sample {di m : ℕ} (act : ℚ → ℚ) (s : AdaptAE di m)
    (data : Matrix (Fin 1) (Fin di) ℚ) :
    AdaptAE di m × Matrix (Fin m) (Fin di) ℚ :=
  let H := s.hidden act data
  let s1 := s.calc_p_sample Hᵀ
  let s2 := s1.calc_beta_sample data Hᵀ
  (s2, s2.beta)

/-- The `i`-th row of a stacked data matrix, as a `1 × di` batch. -/
def AdaptAE.row {di n : ℕ} (X : Matrix (Fin n) (Fin di) ℚ) (i : Fin n) :
    Matrix (Fin 1) (Fin di) ℚ :=
  Matrix.of fun _ j => X i j

/-- Running `seq_phase` in `sample` mode on the rows `X 0, X 1, ..., X (n-1)`
one at a time, in order. -/
def AdaptAE.seq_phase_sample_run {di m n : ℕ} (act : ℚ → ℚ)
    (s : AdaptAE di m) (X : Matrix (Fin n) (Fin di) ℚ) : AdaptAE di m :=
  ((List.finRange n).map (AdaptAE.row X)).foldl
    (fun t r => (t.seq_phase_sample act r).1) s

/-! ### Dynamically-shaped embedding (src/models/adaptae.py with runtime
shapes, src/util/util.py `assert_cond`) -/

/-- Python-level exceptions relevant to the model:
`assertionError` from `util.assert_cond` (the spec's ShapeMismatchError),
`valueError` from the explicit `raise ValueError` statements, and
`runtimeError` for a `torch.matmul` / broadcasting shape failure. -/
inductive PyErr where
  | assertionError (msg : String)
  | valueError (msg : String)
  | runtimeError
deriving DecidableEq

/-- A runtime-shaped vector (1-D tensor). -/
abbrev VecL := List ℚ

/-- A runtime-shaped matrix (2-D tensor), row major. -/
abbrev MatL := List (List ℚ)

/-- Number of rows (`tensor.shape[0]`). -/
def numRowsL (A : MatL) : ℕ := A.length

/-- Number of columns (`tensor.shape[1]`). -/
def numColsL (A : MatL) : ℕ := (A.headD []).length

/-- Rectangular well-formedness: `A` is an `r × c` tensor. -/
def WFL (A : MatL) (r c : ℕ) : Prop := A.length = r ∧ ∀ row ∈ A, row.length = c

instance (A : MatL) (r c : ℕ) : Decidable (WFL A r c) := by
  unfold WFL
  infer_instance

instance {ε α : Type} [DecidableEq ε] [DecidableEq α] :
    DecidableEq (Except ε α) := fun a b =>
  match a, b with
  | .ok x, .ok y =>
    if h : x = y then .isTrue (by rw [h]) else .isFalse (by simp [h])
  | .error e, .error e' =>
    if h : e = e' then .isTrue (by rw [h]) else .isFalse (by simp [h])
  | .ok _, .error _ => .isFalse (by simp)
  | .error _, .ok _ => .isFalse (by simp)

/-- Dot product of two rows. -/
def dotL (u v : VecL) : ℚ := (List.zipWith (fun a b => a * b) u v).sum

/-- `tensor.T`. -/
def transposeL (A : MatL) : MatL :=
  (List.range (numColsL A)).map (fun j => A.map (fun row => row.getD j 0))

/-- `torch.matmul` on 2-D tensors: the inner dimensions must agree,
otherwise a RuntimeError is raised. -/
def matmulL (A B : MatL) : Except PyErr MatL :=
  if numColsL A = numRowsL B then
    .ok (A.map fun row => (transposeL B).map (fun col => dotL row col))
  else .error .runtimeError

/-- Elementwise `+` on same-shape 2-D tensors. -/
def maddL (A B : MatL) : Except PyErr MatL :=
  if numRowsL A = numRowsL B ∧ numColsL A = numColsL B then
    .ok (List.zipWith (fun r1 r2 => List.zipWith (fun a b => a + b) r1 r2) A B)
  else .error .runtimeError

/-- Elementwise `-` on same-shape 2-D tensors. -/
def msubL (A B : MatL) : Except PyErr MatL :=
  if numRowsL A = numRowsL B ∧ numColsL A = numColsL B then
    .ok (List.zipWith (fun r1 r2 => List.zipWith (fun a b => a - b) r1 r2) A B)
  else .error .runtimeError

/-- Broadcast addition of a 1-D bias to every row of a 2-D tensor. -/
def addBiasL (A : MatL) (bias : VecL) : Except PyErr MatL :=
  if numColsL A = bias.length then
    .ok (A.map (fun row => List.zipWith (fun a b => a + b) row bias))
  else .error .runtimeError

/-- Elementwise map (used for the activation function). -/
def emapL (f : ℚ → ℚ) (A : MatL) : MatL := A.map (List.map f)

/-- `torch.eye n`. -/
def eyeL (n : ℕ) : MatL :=
  (List.range n).map (fun i => (List.range n).map (fun j => if i = j then (1 : ℚ) else 0))

/-- `torch.zeros r c`. -/
def zerosL (r c : ℕ) : MatL := List.replicate r (List.replicate c 0)

/-- The single entry of a `1 × 1` tensor. -/
def itemL (A : MatL) : ℚ := (A.headD []).headD 0

/-- `util.assert_cond`: raise AssertionError with the message when the
condition fails (the logging call has no observable model effect). -/
def assert_cond (condition : Prop) [Decidable condition] (msg : String) :
    Except PyErr Unit :=
  if condition then .ok () else .error (.assertionError msg)

/-- Runtime-shaped state of an `AdaptAE` instance. -/
structure AdaptAEL where
  n_input : ℕ
  n_hidden : ℕ
  alpha : MatL
  bias : VecL
  p : MatL
  beta : MatL
deriving DecidableEq

/-- `AdaptAE.__init__`: only the name `"tanh"` selects an activation; every
other name (including `"sigmoid"`) raises
`ValueError("Activation function not supported")`.  The random draws for
`alpha` (orthogonally initialized) and `bias` (normalized) happen outside the
model's algorithmic contract and are passed in; `p` and `beta` start as zero
matrices of shapes `n_hidden × n_hidden` and `n_hidden × n_input`. -/
def AdaptAEL.init (activation_func : String) (n_input_nodes n_hidden_nodes : ℕ)
    (alpha : MatL) (bias : VecL) : Except PyErr AdaptAEL :=
  if activation_func = "tanh" then
    .ok { n_input := n_input_nodes, n_hidden := n_hidden_nodes,
          alpha := alpha, bias := bias,
          p := zerosL n_hidden_nodes n_hidden_nodes,
          beta := zerosL n_hidden_nodes n_input_nodes }
  else .error (.valueError ("Activation function not supported"))

/-- The shared expression
`self.__activation_func(torch.matmul(data, self.__alpha) + self.__bias)`. -/
def AdaptAEL.project (act : ℚ → ℚ) (s : AdaptAEL) (data : MatL) :
    Except PyErr MatL := do
  let M ← matmulL data s.alpha
  let M2 ← addBiasL M s.bias
  return emapL act M2

/-- `AdaptAE.predict`: `H @ beta`. -/
def AdaptAEL.predict (act : ℚ → ℚ) (s : AdaptAEL) (test_data : MatL) :
    Except PyErr MatL := do
  let H ← s.project act test_data
  matmulL H s.beta

/-- `AdaptAE.init_phase` with runtime shapes.  The pair collects the state
as left by the call (Python mutates `self.__p` and then `self.__beta`)
together with the returned `beta` or the raised exception. -/
def AdaptAEL.init_phase (pinv : MatL → MatL) (act : ℚ → ℚ) (s : AdaptAEL)
    (data : MatL) : AdaptAEL × Except PyErr MatL :=
  match assert_cond (numColsL data = s.n_input)
      ("Input data shape does not match the input nodes") with
  | .error e => (s, .error e)
  | .ok _ =>
    match s.project act data with
    | .error e => (s, .error e)
    | .ok H =>
      match assert_cond (numColsL H = s.n_hidden)
          ("Hidden layer shape does not match the hidden nodes") with
      | .error e => (s, .error e)
      | .ok _ =>
        match assert_cond (numRowsL H = numRowsL data)
            ("Hidden layer shape does not match number of samples") with
        | .error e => (s, .error e)
        | .ok _ =>
          match matmulL (transposeL H) H with
          | .error e => (s, .error e)
          | .ok HtH =>
            let s1 := { s with p := pinv HtH }
            match matmulL s1.p (transposeL H) with
            | .error e => (s1, .error e)
            | .ok pH_T =>
              match matmulL pH_T data with
              | .error e => (s1, .error e)
              | .ok beta' => ({ s1 with beta := beta' }, .ok beta')

/-- `AdaptAE.calc_p_batch` with runtime shapes: all temporaries are computed
before the single assignment to `self.__p`. -/
def AdaptAEL.calc_p_batch (pinv : MatL → MatL) (s : AdaptAEL)
    (batch_size : ℕ) (H : MatL) : AdaptAEL × Except PyErr Unit :=
  match (do
      let PH_T ← matmulL s.p (transposeL H)
      let inner ← matmulL s.p (transposeL H)
      let HPHT ← matmulL H inner
      let S ← maddL HPHT (eyeL batch_size)
      let HP ← matmulL H s.p
      let T1 ← matmulL PH_T (pinv S)
      let T2 ← matmulL T1 HP
      msubL s.p T2 : Except PyErr MatL) with
  | .error e => (s, .error e)
  | .ok p' => ({ s with p := p' }, .ok ())

/-- `AdaptAE.calc_beta_batch` with runtime shapes. -/
def AdaptAEL.calc_beta_batch (s : AdaptAEL) (batch : MatL) (H : MatL) :
    AdaptAEL × Except PyErr Unit :=
  match (do
      let HB ← matmulL H s.beta
      let THB ← msubL batch HB
      let PHT ← matmulL s.p (transposeL H)
      let T ← matmulL PHT THB
      maddL s.beta T : Except PyErr MatL) with
  | .error e => (s, .error e)
  | .ok beta' => ({ s with beta := beta' }, .ok ())

/-- `AdaptAE.calc_p_sample` with runtime shapes (`H` is the column `H.T` of
the call site); `torch.div(PHH_TP, 1 + H_TPH)` broadcasts the single entry
of the `1 × 1` tensor `1 + H_TPH`. -/
def AdaptAEL.calc_p_sample (s : AdaptAEL) (H : MatL) :
    AdaptAEL × Except PyErr Unit :=
  match (do
      let PH ← matmulL s.p H
      let PHH_T ← matmulL PH (transposeL H)
      let PHH_TP ← matmulL PHH_T s.p
      let PH2 ← matmulL s.p H
      let H_TPH ← matmulL (transposeL H) PH2
      let T := emapL (fun a => a / (1 + itemL H_TPH)) PHH_TP
      msubL s.p T : Except PyErr MatL) with
  | .error e => (s, .error e)
  | .ok p' => ({ s with p := p' }, .ok ())

/-- `AdaptAE.calc_beta_sample` with runtime shapes. -/
def AdaptAEL.calc_beta_sample (s : AdaptAEL) (sample : MatL) (H : MatL) :
    AdaptAEL × Except PyErr Unit :=
  match (do
      let HTB ← matmulL (transposeL H) s.beta
      let THB ← msubL sample HTB
      let PH_T ← matmulL s.p H
      let T ← matmulL PH_T THB
      maddL s.beta T : Except PyErr MatL) with
  | .error e => (s, .error e)
  | .ok beta' => ({ s with beta := beta' }, .ok ())

/-- `AdaptAE.seq_phase` with runtime shapes: `H` is computed first, then the
mode string is dispatched (`"batch"`, `"sample"`, otherwise
`ValueError("Mode not supported")`); each arm runs its assertions and then
the two state updates in order. -/
def AdaptAEL.seq_phase (pinv : MatL → MatL) (act : ℚ → ℚ) (s : AdaptAEL)
    (data : MatL) (mode : String) : AdaptAEL × Except PyErr MatL :=
  match s.project act data with
  | .error e => (s, .error e)
  | .ok H =>
    if mode = "batch" then
      match assert_cond (numColsL H = s.n_hidden)
          ("Hidden layer shape does not match the hidden nodes") with
      | .error e => (s, .error e)
      | .ok _ =>
        match assert_cond (numColsL data = s.n_input)
            ("Input data shape does not match the input nodes") with
        | .error e => (s, .error e)
        | .ok _ =>
          match s.calc_p_batch pinv (numRowsL data) H with
          | (s1, .error e) => (s1, .error e)
          | (s1, .ok _) =>
            match s1.calc_beta_batch data H with
            | (s2, .error e) => (s2, .error e)
            | (s2, .ok _) => (s2, .ok s2.beta)
    else if mode = "sample" then
      match assert_cond (numColsL H = s.n_hidden)
          ("Hidden layer shape does not match the hidden nodes") with
      | .error e => (s, .error e)
      | .ok _ =>
        match s.calc_p_sample (transposeL H) with
        | (s1, .error e) => (s1, .error e)
        | (s1, .ok _) =>
          match s1.calc_beta_sample data (transposeL H) with
          | (s2, .error e) => (s2, .error e)
          | (s2, .ok _) => (s2, .ok s2.beta)
    else (s, .error (.valueError ("Mode not supported")))

/-! ### Spec-side reference formulas (for the refinement claims) -/

/-- Modelled from the spec, §4.3 (Recursive Updater, batch mode):
`HPHᵗ_I_inv = pinv(H P Hᵗ + Iₙ)`, `P ← P − P Hᵗ · HPHᵗ_I_inv · H P`,
`Beta ← Beta + P Hᵗ (data − H Beta)` with the already-updated `P`, and the
new `Beta` is returned. -/
def specSeqBatch {di m n : ℕ}
    (pinv : Matrix (Fin n) (Fin n) ℚ → Matrix (Fin n) (Fin n) ℚ)
    (act : ℚ → ℚ) (s : AdaptAE di m) (data : Matrix (Fin n) (Fin di) ℚ) :
    AdaptAE di m × Matrix (Fin m) (Fin di) ℚ :=
  let H := s.hidden act data
  let HPHT_I_inv := pinv (H * s.p * Hᵀ + 1)
  let Pn := s.p - s.p * Hᵀ * HPHT_I_inv * H * s.p
  let Bn := s.beta + Pn * Hᵀ * (data - H * s.beta)
  ({ s with p := Pn, beta := Bn }, Bn)

/-- Modelled from the spec, §4.2 (Initialization Solver):
`P = pinv(Hᵗ H)`, `Beta = P Hᵗ data`, returning the new `Beta`. -/
def specInitPhase {di m n : ℕ}
    (pinv : Matrix (Fin m) (Fin m) ℚ → Matrix (Fin m) (Fin m) ℚ)
    (act : ℚ → ℚ) (s : AdaptAE di m) (data : Matrix (Fin n) (Fin di) ℚ) :
    AdaptAE di m × Matrix (Fin m) (Fin di) ℚ :=
  let H := s.hidden act data
  let Pn := pinv (Hᵀ * H)
  let Bn := Pn * Hᵀ * data
  ({ s with p := Pn, beta := Bn }, Bn)

/-- C3: for every batch `data` of width `input_dim`, `seq_phase` in batch
mode computes `H = activation(data @ alpha + bias)` and updates the state
exactly as `P_new = P - P Hᵗ pinv(H P Hᵗ + Iₙ) H P` followed by
`Beta_new = Beta + P_new Hᵗ (data - H Beta)` (the `P` of the `Beta` formula
being the already-updated `P_new`), returning the new `Beta`.  This holds
for every activation and every function supplied for `torch.linalg.pinv`. -/
theorem C3_batch_update_formula {di m n : ℕ}
    (pinv : Matrix (Fin n) (Fin n) ℚ → Matrix (Fin n) (Fin n) ℚ)
    (act : ℚ → ℚ) (s : AdaptAE di m) (data : Matrix (Fin n) (Fin di) ℚ) :
    s.seq_phase_batch pinv act data = specSeqBatch pinv act s data := by
  simp only [AdaptAE.seq_phase_batch, AdaptAE.calc_p_batch,
    AdaptAE.calc_beta_batch, specSeqBatch, Matrix.mul_assoc]

/-- C4: `init_phase` computes `H = activation(data @ alpha + bias)`, sets
`P = pinv(Hᵗ H)` and `Beta = P Hᵗ data`, and returns the new `Beta`; the
pseudoinverse is applied unconditionally, so the formula holds for every
batch, with no invertibility or rank assumption on `Hᵗ H`. -/
theorem C4_init_phase_formula {di m n : ℕ}
    (pinv : Matrix (Fin m) (Fin m) ℚ → Matrix (Fin m) (Fin m) ℚ)
    (act : ℚ → ℚ) (s : AdaptAE di m) (data : Matrix (Fin n) (Fin di) ℚ) :
    s.init_phase pinv act data = specInitPhase pinv act s data := rfl

/-! ### C6: supported activation names -/

/-- C6 counterexample: the claim says construction succeeds for the
activation name `"sigmoid"`, but `AdaptAE.__init__` accepts only `"tanh"`
and raises `ValueError("Activation function not supported")` for
`"sigmoid"`. -/
theorem C6_counterexample :
    AdaptAEL.init ("sigmoid") 1 1 [[0]] [0]
      = .error (.valueError ("Activation function not supported")) := rfl

/-- C6 (amended): construction succeeds exactly for the activation name
`"tanh"`; every other name, including `"sigmoid"`, fails with a
`ValueError` raised at construction time. -/
theorem C6_amended_construction (activation_func : String)
    (ni nh : ℕ) (alpha : MatL) (bias : VecL) :
    (activation_func = "tanh" →
      AdaptAEL.init activation_func ni nh alpha bias
        = .ok { n_input := ni, n_hidden := nh, alpha := alpha, bias := bias,
                p := zerosL nh nh, beta := zerosL nh ni }) ∧
    (activation_func ≠ "tanh" →
      AdaptAEL.init activation_func ni nh alpha bias
        = .error (.valueError ("Activation function not supported"))) := by
  constructor <;> intro h <;> simp [AdaptAEL.init, h]

/-- Witness for C6 (amended) at the concrete names `"tanh"` and
`"sigmoid"`. -/
theorem C6_amended_construction_witness :
    (AdaptAEL.init ("tanh") 2 3 [[0]] [0]
      = .ok { n_input := 2, n_hidden := 3, alpha := [[0]], bias := [0],
              p := zerosL 3 3, beta := zerosL 3 2 }) ∧
    (AdaptAEL.init ("sigmoid") 2 3 [[0]] [0]
      = .error (.valueError ("Activation function not supported"))) :=
  ⟨(C6_amended_construction ("tanh") 2 3 [[0]] [0]).1 rfl,
   (C6_amended_construction ("sigmoid") 2 3 [[0]] [0]).2 (by decide)⟩

/-! ### C9: fresh model state and prediction -/

/-- Dot product against a zero vector vanishes. -/
theorem dotL_replicate_zero (u : VecL) (k : ℕ) :
    dotL u (List.replicate k 0) = 0 := by
  induction u generalizing k with
  | nil => simp [dotL]
  | cons a u ih =>
    cases k with
    | zero => simp [dotL]
    | succ k =>
      simp only [List.replicate_succ, dotL, List.zipWith_cons_cons,
        List.sum_cons, mul_zero, zero_add]
      exact ih k

/-- Reading any position of a zero row gives `0`. -/
theorem getD_replicate_zero (k j : ℕ) :
    (List.replicate k (0 : ℚ)).getD j 0 = 0 := by
  induction k generalizing j with
  | zero => simp
  | succ k ih =>
    cases j with
    | zero => simp [List.replicate_succ]
    | succ j => simp [List.replicate_succ, ih j]

/-- Transposing a nonempty zero matrix gives the transposed zero matrix. -/
theorem transposeL_zerosL (h i : ℕ) (hh : 0 < h) :
    transposeL (zerosL h i) = List.replicate i (List.replicate h 0) := by
  obtain ⟨h', rfl⟩ : ∃ h', h = h' + 1 := ⟨h - 1, by omega⟩
  simp [transposeL, zerosL, numColsL, List.replicate_succ, List.map_replicate,
    getD_replicate_zero, List.map_const']

/-- Multiplying any matrix with matching inner dimension by a zero matrix
yields the zero matrix. -/
theorem matmulL_zerosL (Hm : MatL) (h i : ℕ) (hh : 0 < h)
    (hcols : numColsL Hm = h) :
    matmulL Hm (zerosL h i) = .ok (zerosL (numRowsL Hm) i) := by
  have hrows : numRowsL (zerosL h i) = h := by simp [numRowsL, zerosL]
  simp only [matmulL, hrows, hcols, if_pos rfl]
  rw [transposeL_zerosL h i hh]
  simp [List.map_replicate, dotL_replicate_zero, List.map_const', zerosL,
    numRowsL]

/-- Computation rule for `Except` bind on a success value. -/
theorem ok_bindE {ε α β : Type} (a : α) (f : α → Except ε β) :
    (Except.ok a : Except ε α) >>= f = f a := rfl

/-- Computation rule for `Except` bind on an error value. -/
theorem error_bindE {ε α β : Type} (e : ε) (f : α → Except ε β) :
    (Except.error e : Except ε α) >>= f = .error e := rfl

/-- `pure` of the `Except` monad is `Except.ok`. -/
theorem pureE {ε α : Type} (a : α) : (pure a : Except ε α) = .ok a := rfl

/-- C9: straight after construction (before any `init_phase`), both `p` and
`beta` are zero matrices of shapes `hidden × hidden` and `hidden × input`,
and therefore `predict` on any well-formed batch of width `input_dim`
returns the all-zero matrix with one row per batch row. -/
theorem C9_initial_state_and_predict (i h : ℕ) (alpha : MatL) (bias : VecL)
    (act : ℚ → ℚ) (s : AdaptAEL)
    (hs : AdaptAEL.init ("tanh") i h alpha bias = .ok s)
    (halpha : WFL alpha i h) (hbias : bias.length = h)
    (hi : 0 < i) (hh : 0 < h)
    (data : MatL) (r : ℕ) (hdata : WFL data r i) (hr : 0 < r) :
    s.p = zerosL h h ∧ s.beta = zerosL h i ∧
      s.predict act data = .ok (zerosL r i) := by
  have hs' : s = AdaptAEL.mk i h alpha bias (zerosL h h) (zerosL h i) := by
    have h2 := hs
    simp only [AdaptAEL.init, if_pos rfl] at h2
    exact ((Except.ok.injEq _ _).mp h2).symm
  subst hs'
  refine ⟨rfl, rfl, ?_⟩
  obtain ⟨d0, data', rfl⟩ : ∃ d0 data', data = d0 :: data' := by
    cases data with
    | nil =>
      exfalso
      have h0 : (0 : ℕ) = r := hdata.1
      omega
    | cons d0 data' => exact ⟨d0, data', rfl⟩
  obtain ⟨a0, alpha', rfl⟩ : ∃ a0 alpha', alpha = a0 :: alpha' := by
    cases alpha with
    | nil =>
      exfalso
      have h0 : (0 : ℕ) = i := halpha.1
      omega
    | cons a0 alpha' => exact ⟨a0, alpha', rfl⟩
  have hd0 : d0.length = i := hdata.2 d0 (List.mem_cons_self _ _)
  have ha0 : a0.length = h := halpha.2 a0 (List.mem_cons_self _ _)
  have hlenα : (a0 :: alpha').length = i := halpha.1
  have hmm1 : matmulL (d0 :: data') (a0 :: alpha')
      = .ok ((d0 :: data').map fun row =>
          (transposeL (a0 :: alpha')).map (fun col => dotL row col)) := by
    simp [matmulL, numColsL, numRowsL, hd0, hlenα]
  have hlenT : (transposeL (a0 :: alpha')).length = h := by
    simp [transposeL, numColsL, ha0]
  simp only [AdaptAEL.predict, AdaptAEL.project, hmm1, ok_bindE, addBiasL,
    bind_assoc]
  rw [if_pos (show numColsL ((d0 :: data').map fun row =>
      (transposeL (a0 :: alpha')).map (fun col => dotL row col))
        = bias.length by simp [numColsL, hlenT, hbias])]
  simp only [ok_bindE, pureE]
  have hcolsH : numColsL (emapL act
      (((d0 :: data').map fun row =>
          (transposeL (a0 :: alpha')).map (fun col => dotL row col)).map
        (fun row => List.zipWith (fun a b => a + b) row bias)))
      = h := by
    simp [emapL, numColsL, hlenT, hbias]
  rw [matmulL_zerosL _ h i hh hcolsH]
  have hrowsH : numRowsL (emapL act
      (((d0 :: data').map fun row =>
          (transposeL (a0 :: alpha')).map (fun col => dotL row col)).map
        (fun row => List.zipWith (fun a b => a + b) row bias)))
      = r := by
    simp only [emapL, numRowsL, List.length_map]
    exact hdata.1
  rw [hrowsH]

/-! ### C7 and C8: shape checks and mode dispatch -/

/-- On a well-formed state and a well-formed nonempty batch of the right
width, `project` succeeds and returns the elementwise-activated biased
product. -/
theorem project_ok_of_WF (act : ℚ → ℚ) (s : AdaptAEL) (data : MatL) (r : ℕ)
    (hWFa : WFL s.alpha s.n_input s.n_hidden)
    (hbias : s.bias.length = s.n_hidden) (hi : 0 < s.n_input)
    (hdata : WFL data r s.n_input) (hr : 0 < r) :
    s.project act data
      = .ok (emapL act
          ((data.map fun row =>
              (transposeL s.alpha).map (fun col => dotL row col)).map
            (fun row => List.zipWith (fun a b => a + b) row s.bias))) := by
  obtain ⟨d0, data', hdeq⟩ : ∃ d0 data', data = d0 :: data' := by
    cases data with
    | nil =>
      exfalso
      have h0 : (0 : ℕ) = r := hdata.1
      omega
    | cons d0 data' => exact ⟨d0, data', rfl⟩
  obtain ⟨a0, alpha', haeq⟩ : ∃ a0 alpha', s.alpha = a0 :: alpha' := by
    cases halpha : s.alpha with
    | nil =>
      exfalso
      rw [halpha] at hWFa
      have h0 : (0 : ℕ) = s.n_input := hWFa.1
      omega
    | cons a0 alpha' => exact ⟨a0, alpha', rfl⟩
  have hd0 : d0.length = s.n_input := by
    refine hdata.2 d0 ?_
    rw [hdeq]; exact List.mem_cons_self _ _
  have ha0 : a0.length = s.n_hidden := by
    refine hWFa.2 a0 ?_
    rw [haeq]; exact List.mem_cons_self _ _
  have hlenα : s.alpha.length = s.n_input := hWFa.1
  have hmm1 : matmulL data s.alpha
      = .ok (data.map fun row =>
          (transposeL s.alpha).map (fun col => dotL row col)) := by
    rw [hdeq]
    simp [matmulL, numColsL, numRowsL, hd0, hlenα.symm]
  have hlenT : (transposeL s.alpha).length = s.n_hidden := by
    rw [haeq]
    simp only [transposeL, List.length_map, List.length_range, numColsL,
      List.headD_cons]
    exact ha0
  simp only [AdaptAEL.project, hmm1, ok_bindE, addBiasL]
  rw [if_pos (show numColsL (data.map fun row =>
      (transposeL s.alpha).map (fun col => dotL row col))
        = s.bias.length by
    rw [hdeq]
    simp [numColsL, hlenT, hbias])]
  simp only [ok_bindE, pureE]

/-- C7 counterexample: with `input_dim = 2` and a data row of width `1`,
`seq_phase` in sample mode fails with the matmul shape error raised while
computing `H` (`runtimeError`), not with a `ShapeMismatchError` assertion
failure, because `seq_phase` computes `H` before any assertion runs. -/
theorem C7_counterexample :
    (AdaptAEL.mk 2 1 [[1], [1]] [0] (zerosL 1 1) (zerosL 1 2)).seq_phase
        (fun A => A) (fun x => x) [[1]] ("sample")
      = (AdaptAEL.mk 2 1 [[1], [1]] [0] (zerosL 1 1) (zerosL 1 2),
          .error .runtimeError) ∧
    PyErr.runtimeError
      ≠ PyErr.assertionError ("Input data shape does not match the input nodes") :=
  ⟨rfl, by simp⟩

/-- C7 (amended): `init_phase` raises the ShapeMismatchError assertion for a
batch-width mismatch before any state mutation, and whenever `seq_phase`'s
`H` is successfully computed the hidden-width and row-count conditions hold
structurally; but in `seq_phase` (either mode) a batch-width mismatch
surfaces before any state mutation as the matmul shape error raised while
computing `H`, not as a ShapeMismatchError. -/
theorem C7_amended_shape_errors :
    (∀ (pinv : MatL → MatL) (act : ℚ → ℚ) (s : AdaptAEL) (data : MatL),
      numColsL data ≠ s.n_input →
        s.init_phase pinv act data
          = (s, .error (.assertionError
              ("Input data shape does not match the input nodes")))) ∧
    (∀ (pinv : MatL → MatL) (act : ℚ → ℚ) (s : AdaptAEL) (data : MatL)
        (mode : String),
      s.alpha.length = s.n_input → numColsL data ≠ s.n_input →
        s.seq_phase pinv act data mode = (s, .error .runtimeError)) ∧
    (∀ (act : ℚ → ℚ) (s : AdaptAEL) (data : MatL) (H : MatL),
      s.alpha ≠ [] → WFL s.alpha s.n_input s.n_hidden → data ≠ [] →
        s.project act data = .ok H →
          numColsL H = s.n_hidden ∧ numRowsL H = numRowsL data) := by
  refine ⟨?_, ?_, ?_⟩
  · intro pinv act s data hw
    simp [AdaptAEL.init_phase, assert_cond, hw]
  · intro pinv act s data mode hlen hw
    have hmm : matmulL data s.alpha = .error .runtimeError := by
      rw [matmulL, if_neg]
      rw [numRowsL, hlen]
      exact hw
    simp [AdaptAEL.seq_phase, AdaptAEL.project, hmm, error_bindE]
  · intro act s data H hα hWFa hd hok
    obtain ⟨a0, alpha', haeq⟩ : ∃ a0 alpha', s.alpha = a0 :: alpha' := by
      cases halpha : s.alpha with
      | nil => exact absurd halpha hα
      | cons a0 alpha' => exact ⟨a0, alpha', rfl⟩
    obtain ⟨d0, data', hdeq⟩ : ∃ d0 data', data = d0 :: data' := by
      cases data with
      | nil => exact absurd rfl hd
      | cons d0 data' => exact ⟨d0, data', rfl⟩
    have ha0 : a0.length = s.n_hidden := by
      refine hWFa.2 a0 ?_
      rw [haeq]; exact List.mem_cons_self _ _
    have hlenT : (transposeL s.alpha).length = s.n_hidden := by
      rw [haeq]
      simp only [transposeL, List.length_map, List.length_range, numColsL,
        List.headD_cons]
      exact ha0
    simp only [AdaptAEL.project] at hok
    rcases hmm : matmulL data s.alpha with e | M
    · rw [hmm, error_bindE] at hok
      exact absurd hok (by simp)
    · rw [hmm, ok_bindE] at hok
      have hM : M = data.map fun row =>
          (transposeL s.alpha).map (fun col => dotL row col) := by
        by_cases hc : numColsL data = numRowsL s.alpha
        · rw [matmulL, if_pos hc] at hmm
          exact ((Except.ok.injEq _ _).mp hmm).symm
        · rw [matmulL, if_neg hc] at hmm
          exact absurd hmm (by simp)
      rcases hab : addBiasL M s.bias with e | M2
      · rw [hab, error_bindE] at hok
        exact absurd hok (by simp)
      · rw [hab, ok_bindE, pureE] at hok
        have hM2 : M2 = M.map
            (fun row => List.zipWith (fun a b => a + b) row s.bias) ∧
            numColsL M = s.bias.length := by
          by_cases hc : numColsL M = s.bias.length
          · rw [addBiasL, if_pos hc] at hab
            exact ⟨((Except.ok.injEq _ _).mp hab).symm, hc⟩
          · rw [addBiasL, if_neg hc] at hab
            exact absurd hab (by simp)
        have hH : H = emapL act M2 := ((Except.ok.injEq _ _).mp hok).symm
        have hMcols : numColsL M = s.n_hidden := by
          rw [hM, hdeq]
          simp [numColsL, hlenT]
        constructor
        · rw [hH, hM2.1, hM, hdeq]
          simp only [emapL, numColsL, List.map_cons, List.headD_cons,
            List.length_map, List.length_zipWith, hlenT]
          rw [← hM2.2, hMcols]
          exact Nat.min_self _
        · rw [hH, hM2.1, hM]
          simp [emapL, numRowsL]

/-- Witness for C7 (amended) at concrete states: an `init_phase` width
mismatch raises the assertion, a `seq_phase` width mismatch raises the
matmul error with the state unchanged, and a successful `project` satisfies
the hidden-shape conditions. -/
theorem C7_amended_shape_errors_witness :
    (numColsL [[1]]
        ≠ (AdaptAEL.mk 2 1 [[1], [1]] [0] (zerosL 1 1) (zerosL 1 2)).n_input ∧
      (AdaptAEL.mk 2 1 [[1], [1]] [0] (zerosL 1 1) (zerosL 1 2)).init_phase
          (fun A => A) (fun x => x) [[1]]
        = (AdaptAEL.mk 2 1 [[1], [1]] [0] (zerosL 1 1) (zerosL 1 2),
            .error (.assertionError
              ("Input data shape does not match the input nodes")))) ∧
    ((AdaptAEL.mk 2 1 [[1], [1]] [0] (zerosL 1 1) (zerosL 1 2)).seq_phase
          (fun A => A) (fun x => x) [[1]] ("batch")
        = (AdaptAEL.mk 2 1 [[1], [1]] [0] (zerosL 1 1) (zerosL 1 2),
            .error .runtimeError)) ∧
    (numColsL [[2]] = (AdaptAEL.mk 1 1 [[1]] [0] [[0]] [[0]]).n_hidden ∧
      numRowsL [[2]] = numRowsL [[2]]) :=
  ⟨⟨by decide,
    C7_amended_shape_errors.1 (fun A => A) (fun x => x) _ [[1]] (by decide)⟩,
   C7_amended_shape_errors.2.1 (fun A => A) (fun x => x) _ [[1]] ("batch")
     rfl (by decide),
   C7_amended_shape_errors.2.2 (fun x => x)
     (AdaptAEL.mk 1 1 [[1]] [0] [[0]] [[0]]) [[2]] [[2]]
     (by decide) (by decide) (by decide)
     (by simp [AdaptAEL.project, matmulL, addBiasL, emapL, dotL, transposeL,
       numColsL, numRowsL, ok_bindE, pureE, List.range_succ])⟩

/-- C8: for every mode string other than `"batch"` and `"sample"`, on a
processable batch `seq_phase` raises `ValueError("Mode not supported")`
without applying any default mode, and the state returned alongside the
exception is exactly the input state: `p` and `beta` are unchanged by the
failed call. -/
theorem C8_unsupported_mode (pinv : MatL → MatL) (act : ℚ → ℚ)
    (s : AdaptAEL) (data : MatL) (mode : String) (r : ℕ)
    (hWFa : WFL s.alpha s.n_input s.n_hidden)
    (hbias : s.bias.length = s.n_hidden) (hi : 0 < s.n_input)
    (hdata : WFL data r s.n_input) (hr : 0 < r)
    (hm1 : mode ≠ "batch") (hm2 : mode ≠ "sample") :
    s.seq_phase pinv act data mode
      = (s, .error (.valueError ("Mode not supported"))) := by
  rw [AdaptAEL.seq_phase,
    project_ok_of_WF act s data r hWFa hbias hi hdata hr]
  simp [hm1, hm2]

/-- Witness for C8 at a concrete model, batch and mode string. -/
theorem C8_unsupported_mode_witness :
    WFL [[1]] 1 1 ∧ WFL [[2]] 1 1 ∧
    ("bogus" : String) ≠ "batch" ∧ ("bogus" : String) ≠ "sample" ∧
    (AdaptAEL.mk 1 1 [[1]] [0] [[0]] [[0]]).seq_phase
        (fun A => A) (fun x => x) [[2]] ("bogus")
      = (AdaptAEL.mk 1 1 [[1]] [0] [[0]] [[0]],
          .error (.valueError ("Mode not supported"))) :=
  ⟨by decide, by decide, by decide, by decide,
   C8_unsupported_mode (fun A => A) (fun x => x) _ [[2]] ("bogus") 1
     (by decide) rfl (by decide) (by decide) (by decide) (by decide)
     (by decide)⟩

/-- Witness for C9 at a concrete freshly-constructed model. -/
theorem C9_initial_state_and_predict_witness :
    AdaptAEL.init ("tanh") 1 1 [[1]] [0]
        = .ok (AdaptAEL.mk 1 1 [[1]] [0] (zerosL 1 1) (zerosL 1 1)) ∧
    WFL [[1]] 1 1 ∧ WFL [[2]] 1 1 ∧
    ((AdaptAEL.mk 1 1 [[1]] [0] (zerosL 1 1) (zerosL 1 1)).p = zerosL 1 1 ∧
      (AdaptAEL.mk 1 1 [[1]] [0] (zerosL 1 1) (zerosL 1 1)).beta
        = zerosL 1 1 ∧
      (AdaptAEL.mk 1 1 [[1]] [0] (zerosL 1 1) (zerosL 1 1)).predict
          (fun x => x) [[2]]
        = .ok (zerosL 1 1)) :=
  ⟨rfl, by decide, by decide,
   C9_initial_state_and_predict 1 1 [[1]] [0] (fun x => x) _ rfl
     (by decide) rfl (by decide) (by decide) [[2]] 1 (by decide)
     (by decide)⟩

/-! ### Rational positive semidefiniteness and pinv instances -/

/-- A computable inverse of square rational matrices, provably equal to
Mathlib's `A⁻¹` everywhere; it instantiates the abstract `pinv` parameter
in concrete witnesses. -/
def ratInv {k : ℕ} (A : Matrix (Fin k) (Fin k) ℚ) :
    Matrix (Fin k) (Fin k) ℚ :=
  A.det⁻¹ • A.adjugate

/-- `ratInv` agrees with the Mathlib matrix inverse. -/
theorem ratInv_eq_inv {k : ℕ} (A : Matrix (Fin k) (Fin k) ℚ) :
    ratInv A = A⁻¹ := by
  rw [ratInv, Matrix.inv_def, Ring.inverse_eq_inv]

/-- Symmetric positive semidefiniteness of a rational matrix. -/
def PSDM {k : ℕ} (M : Matrix (Fin k) (Fin k) ℚ) : Prop :=
  Mᵀ = M ∧ ∀ x : Fin k → ℚ, 0 ≤ x ⬝ᵥ M.mulVec x

/-- The column vector carried by an `k × 1` matrix. -/
def colv {k : ℕ} (u : Matrix (Fin k) (Fin 1) ℚ) : Fin k → ℚ := fun i => u i 0

/-- Transposing inside a dot product. -/
theorem dot_shift {a b : ℕ} (A : Matrix (Fin a) (Fin b) ℚ) (v : Fin a → ℚ)
    (w : Fin b → ℚ) : (Aᵀ *ᵥ v) ⬝ᵥ w = v ⬝ᵥ (A *ᵥ w) := by
  rw [Matrix.mulVec_transpose]
  exact (Matrix.dotProduct_mulVec v A w).symm

/-- A dot product of a rational vector with itself is nonnegative. -/
theorem dot_self_nonneg {k : ℕ} (v : Fin k → ℚ) : 0 ≤ v ⬝ᵥ v := by
  rw [Matrix.dotProduct]
  exact Finset.sum_nonneg fun i _ => mul_self_nonneg (v i)

/-- The single entry of the `1 × 1` matrix `uᵀ (P u)` is the quadratic form
of `P` at the column of `u`. -/
theorem quad_entry {k : ℕ} (P : Matrix (Fin k) (Fin k) ℚ)
    (u : Matrix (Fin k) (Fin 1) ℚ) :
    (uᵀ * (P * u)) 0 0 = colv u ⬝ᵥ (P *ᵥ colv u) := by
  simp [Matrix.mul_apply, Matrix.mulVec, Matrix.dotProduct, colv,
    Matrix.transpose_apply]

/-- The single entry of `1 + E` for a `1 × 1` matrix `E`. -/
theorem one_add_entry (E : Matrix (Fin 1) (Fin 1) ℚ) :
    (1 + E) 0 0 = 1 + E 0 0 := by
  simp [Matrix.add_apply]

/-- Elementwise division by a scalar is scalar multiplication by its
inverse. -/
theorem of_div_eq_smul {a b : ℕ} (N : Matrix (Fin a) (Fin b) ℚ) (c : ℚ) :
    (Matrix.of fun i j => N i j / c) = c⁻¹ • N := by
  ext i j
  simp [div_eq_inv_mul]

/-- A `1 × 1` matrix is a scalar multiple of the identity. -/
theorem one_one_eq_smul_one (E : Matrix (Fin 1) (Fin 1) ℚ) :
    E = E 0 0 • 1 := by
  ext i j
  fin_cases i
  fin_cases j
  simp

/-- Multiplying a column block by a `1 × 1` matrix rescales it. -/
theorem mul_one_one {a : ℕ} (A : Matrix (Fin a) (Fin 1) ℚ)
    (E : Matrix (Fin 1) (Fin 1) ℚ) : A * E = E 0 0 • A := by
  ext i j
  fin_cases j
  simp [Matrix.mul_apply]
  ring

/-- The `p` produced by `calc_p_sample` in scalar-multiple form. -/
theorem calc_p_sample_p {di m : ℕ} (s : AdaptAE di m)
    (u : Matrix (Fin m) (Fin 1) ℚ) :
    (s.calc_p_sample u).p
      = s.p - (1 + (uᵀ * (s.p * u)) 0 0)⁻¹ • (s.p * u * uᵀ * s.p) := by
  have h1 : (s.calc_p_sample u).p = s.p - Matrix.of fun i j =>
      (s.p * u * uᵀ * s.p) i j /
        ((1 + uᵀ * (s.p * u) : Matrix (Fin 1) (Fin 1) ℚ) 0 0) := rfl
  rw [h1, of_div_eq_smul, one_add_entry]

/-- Swapping the two arguments of a symmetric quadratic form. -/
theorem dot_swap {k : ℕ} (P : Matrix (Fin k) (Fin k) ℚ) (hsym : Pᵀ = P)
    (x z : Fin k → ℚ) : x ⬝ᵥ (P *ᵥ z) = z ⬝ᵥ (P *ᵥ x) := by
  rw [← dot_shift P x z, hsym]
  exact Matrix.dotProduct_comm _ _

/-- Expansion of a symmetric quadratic form at a linear combination. -/
theorem quad_shift_expand {k : ℕ} (P : Matrix (Fin k) (Fin k) ℚ)
    (hsym : Pᵀ = P) (x z : Fin k → ℚ) (a b : ℚ) :
    (a • x - b • z) ⬝ᵥ (P *ᵥ (a • x - b • z))
      = a * a * (x ⬝ᵥ (P *ᵥ x)) - 2 * (a * b) * (z ⬝ᵥ (P *ᵥ x))
          + b * b * (z ⬝ᵥ (P *ᵥ z)) := by
  have hswap := dot_swap P hsym x z
  simp only [Matrix.mulVec_sub, Matrix.mulVec_smul, Matrix.sub_dotProduct,
    Matrix.dotProduct_sub, Matrix.smul_dotProduct, Matrix.dotProduct_smul,
    smul_eq_mul]
  rw [hswap]
  ring

/-- Applying the transpose of a column as a linear map gives the constant
vector of the dot product against the column. -/
theorem colT_mulVec {k : ℕ} (u : Matrix (Fin k) (Fin 1) ℚ) (w : Fin k → ℚ) :
    uᵀ *ᵥ w = fun _ => colv u ⬝ᵥ w := by
  funext c
  fin_cases c
  simp [Matrix.mulVec, Matrix.dotProduct, colv]

/-- The column of a product `P * u` is `P` applied to the column of `u`. -/
theorem colv_mul {k l : ℕ} (P : Matrix (Fin l) (Fin k) ℚ)
    (u : Matrix (Fin k) (Fin 1) ℚ) : colv (P * u) = P *ᵥ colv u := by
  funext i
  simp [colv, Matrix.mul_apply, Matrix.mulVec, Matrix.dotProduct]

/-- A column matrix applied to a constant vector. -/
theorem col_mulVec_const {l : ℕ} (A : Matrix (Fin l) (Fin 1) ℚ) (c : ℚ) :
    A *ᵥ (fun _ => c) = c • colv A := by
  funext i
  simp [Matrix.mulVec, Matrix.dotProduct, colv, mul_comm]

/-- The rank-one numerator `P u uᵀ P` as a linear map. -/
theorem col_outer_mulVec {k : ℕ} (P : Matrix (Fin k) (Fin k) ℚ)
    (u : Matrix (Fin k) (Fin 1) ℚ) (x : Fin k → ℚ) :
    (P * u * uᵀ * P) *ᵥ x = (colv u ⬝ᵥ (P *ᵥ x)) • (P *ᵥ colv u) := by
  have h1 : (P * u * uᵀ * P) *ᵥ x = (P * u * uᵀ) *ᵥ (P *ᵥ x) :=
    (Matrix.mulVec_mulVec x (P * u * uᵀ) P).symm
  have h2 : (P * u * uᵀ) *ᵥ (P *ᵥ x) = (P * u) *ᵥ (uᵀ *ᵥ (P *ᵥ x)) :=
    (Matrix.mulVec_mulVec (P *ᵥ x) (P * u) uᵀ).symm
  rw [h1, h2, colT_mulVec, col_mulVec_const, colv_mul]

/-- The sample-mode `P` update formula preserves symmetric positive
semidefiniteness. -/
theorem sample_update_psd {k : ℕ} (P : Matrix (Fin k) (Fin k) ℚ)
    (u : Matrix (Fin k) (Fin 1) ℚ) (hP : PSDM P) :
    PSDM (P - (1 + (uᵀ * (P * u)) 0 0)⁻¹ • (P * u * uᵀ * P)) := by
  have hq := quad_entry P u
  have hq0 : 0 ≤ colv u ⬝ᵥ (P *ᵥ colv u) := hP.2 (colv u)
  set dd := 1 + (uᵀ * (P * u)) 0 0 with hdd
  have hdd1 : 1 ≤ dd := by rw [hdd, hq]; linarith
  have hddpos : 0 < dd := lt_of_lt_of_le one_pos hdd1
  constructor
  · have hN : (P * u * uᵀ * P)ᵀ = P * u * uᵀ * P := by
      simp only [Matrix.transpose_mul, Matrix.transpose_transpose, hP.1]
      simp [Matrix.mul_assoc]
    rw [Matrix.transpose_sub, Matrix.transpose_smul, hP.1, hN]
  · intro x
    have hNx := col_outer_mulVec P u x
    have hxPh : x ⬝ᵥ (P *ᵥ colv u) = colv u ⬝ᵥ (P *ᵥ x) :=
      dot_swap P hP.1 x (colv u)
    have hquad : x ⬝ᵥ ((P - dd⁻¹ • (P * u * uᵀ * P)) *ᵥ x)
        = x ⬝ᵥ (P *ᵥ x)
            - dd⁻¹ * ((colv u ⬝ᵥ (P *ᵥ x)) * (colv u ⬝ᵥ (P *ᵥ x))) := by
      rw [Matrix.sub_mulVec, Matrix.dotProduct_sub,
        Matrix.smul_mulVec_assoc, hNx, Matrix.dotProduct_smul,
        Matrix.dotProduct_smul, hxPh, smul_eq_mul, smul_eq_mul]
    rw [hquad]
    have hPh : colv u ⬝ᵥ (P *ᵥ colv u) = dd - 1 := by rw [hdd, hq]; ring
    have key0 := hP.2 (dd • x - (colv u ⬝ᵥ (P *ᵥ x)) • colv u)
    rw [quad_shift_expand P hP.1 x (colv u) dd (colv u ⬝ᵥ (P *ᵥ x)),
      hPh] at key0
    set q := colv u ⬝ᵥ (P *ᵥ x) with hqdef
    set S := x ⬝ᵥ (P *ᵥ x) with hSdef
    have h1 : q * q ≤ dd * S := by nlinarith [key0, hddpos, sq_nonneg q]
    have h2 : dd⁻¹ * (q * q) ≤ S := by
      rw [inv_mul_le_iff₀ hddpos]
      exact h1
    linarith

/-- A Gram matrix `Hᵀ H` is symmetric positive semidefinite. -/
theorem gram_psd {n k : ℕ} (H : Matrix (Fin n) (Fin k) ℚ) :
    PSDM (Hᵀ * H) := by
  constructor
  · rw [Matrix.transpose_mul, Matrix.transpose_transpose]
  · intro x
    have e1 : (Hᵀ * H) *ᵥ x = Hᵀ *ᵥ (H *ᵥ x) :=
      (Matrix.mulVec_mulVec x Hᵀ H).symm
    rw [e1, Matrix.dotProduct_comm, dot_shift H (H *ᵥ x) x,
      Matrix.dotProduct_comm]
    exact dot_self_nonneg _

/-- For positive semidefinite `P` the matrix `H P Hᵀ + I` of the batch
update is invertible. -/
theorem unit_det_S {k n : ℕ} (P : Matrix (Fin k) (Fin k) ℚ)
    (H : Matrix (Fin n) (Fin k) ℚ) (hP : PSDM P) :
    IsUnit (H * (P * Hᵀ) + 1).det := by
  rw [isUnit_iff_ne_zero]
  intro hdet
  obtain ⟨v, hv0, hvz⟩ := Matrix.exists_mulVec_eq_zero_iff.mpr hdet
  have hq : v ⬝ᵥ ((H * (P * Hᵀ) + 1) *ᵥ v) = 0 := by
    rw [hvz, Matrix.dotProduct_zero]
  rw [Matrix.add_mulVec, Matrix.one_mulVec, Matrix.dotProduct_add] at hq
  have h1 : v ⬝ᵥ ((H * (P * Hᵀ)) *ᵥ v)
      = (Hᵀ *ᵥ v) ⬝ᵥ (P *ᵥ (Hᵀ *ᵥ v)) := by
    have e1 : (H * (P * Hᵀ)) *ᵥ v = H *ᵥ ((P * Hᵀ) *ᵥ v) :=
      (Matrix.mulVec_mulVec v H (P * Hᵀ)).symm
    have e2 : (P * Hᵀ) *ᵥ v = P *ᵥ (Hᵀ *ᵥ v) :=
      (Matrix.mulVec_mulVec v P Hᵀ).symm
    rw [e1, e2, ← dot_shift H v (P *ᵥ (Hᵀ *ᵥ v))]
  have h2 : 0 ≤ (Hᵀ *ᵥ v) ⬝ᵥ (P *ᵥ (Hᵀ *ᵥ v)) := hP.2 _
  have h3 : 0 < v ⬝ᵥ v := by
    rcases lt_or_eq_of_le (dot_self_nonneg v) with h | h
    · exact h
    · exact absurd (Matrix.dotProduct_self_eq_zero.mp h.symm) hv0
  rw [h1] at hq
  linarith

/-- The batch-mode `P` update (with the `n × n` pseudoinverse realized as a
true inverse of the invertible `H P Hᵀ + I`) preserves symmetric positive
semidefiniteness. -/
theorem batch_update_psd {k n : ℕ} (P : Matrix (Fin k) (Fin k) ℚ)
    (H : Matrix (Fin n) (Fin k) ℚ) (hP : PSDM P)
    (hS : IsUnit (H * (P * Hᵀ) + 1).det) :
    PSDM (P - P * Hᵀ * (H * (P * Hᵀ) + 1)⁻¹ * (H * P)) := by
  set S := H * (P * Hᵀ) + 1 with hSdef
  have hSsym : Sᵀ = S := by
    rw [hSdef, Matrix.transpose_add, Matrix.transpose_one]
    simp only [Matrix.transpose_mul, Matrix.transpose_transpose, hP.1]
    rw [Matrix.mul_assoc]
  have hKsym : (S⁻¹)ᵀ = S⁻¹ := by
    rw [Matrix.transpose_nonsing_inv, hSsym]
  constructor
  · have hNsym : (P * Hᵀ * S⁻¹ * (H * P))ᵀ = P * Hᵀ * S⁻¹ * (H * P) := by
      simp only [Matrix.transpose_mul, Matrix.transpose_transpose, hP.1,
        hKsym]
      simp [Matrix.mul_assoc]
    rw [Matrix.transpose_sub, hP.1, hNsym]
  · intro x
    set y := H *ᵥ (P *ᵥ x) with hy
    set z := S⁻¹ *ᵥ y with hz
    have hSz : S *ᵥ z = y := by
      rw [hz, Matrix.mulVec_mulVec, Matrix.mul_nonsing_inv _ hS,
        Matrix.one_mulVec]
    have hNx : (P * Hᵀ * S⁻¹ * (H * P)) *ᵥ x = (P * Hᵀ) *ᵥ z := by
      have e1 : (P * Hᵀ * S⁻¹ * (H * P)) *ᵥ x
          = (P * Hᵀ * S⁻¹) *ᵥ ((H * P) *ᵥ x) :=
        (Matrix.mulVec_mulVec x (P * Hᵀ * S⁻¹) (H * P)).symm
      have e2 : (H * P) *ᵥ x = y := by
        rw [hy, Matrix.mulVec_mulVec]
      have e3 : (P * Hᵀ * S⁻¹) *ᵥ y = (P * Hᵀ) *ᵥ (S⁻¹ *ᵥ y) :=
        (Matrix.mulVec_mulVec y (P * Hᵀ) S⁻¹).symm
      rw [e1, e2, e3]
    have e4 : (P * Hᵀ)ᵀ = H * P := by
      rw [Matrix.transpose_mul, Matrix.transpose_transpose, hP.1]
    have hxN : x ⬝ᵥ ((P * Hᵀ * S⁻¹ * (H * P)) *ᵥ x) = y ⬝ᵥ z := by
      rw [hNx, ← dot_shift (P * Hᵀ) x z, e4, ← Matrix.mulVec_mulVec]
    have hc1 : (Hᵀ *ᵥ z) ⬝ᵥ (P *ᵥ x) = y ⬝ᵥ z := by
      rw [dot_shift H z (P *ᵥ x)]
      exact Matrix.dotProduct_comm z y
    have hc2 : (Hᵀ *ᵥ z) ⬝ᵥ (P *ᵥ (Hᵀ *ᵥ z)) = y ⬝ᵥ z - z ⬝ᵥ z := by
      rw [dot_shift H z (P *ᵥ (Hᵀ *ᵥ z))]
      have e5 : H *ᵥ (P *ᵥ (Hᵀ *ᵥ z)) = (H * (P * Hᵀ)) *ᵥ z := by
        rw [Matrix.mulVec_mulVec, Matrix.mulVec_mulVec, Matrix.mul_assoc]
      have e6 : (H * (P * Hᵀ)) *ᵥ z = S *ᵥ z - z := by
        rw [hSdef, Matrix.add_mulVec, Matrix.one_mulVec]
        simp
      rw [e5, e6, hSz, Matrix.dotProduct_sub, Matrix.dotProduct_comm z y]
    have key0 := hP.2 ((1 : ℚ) • x - (1 : ℚ) • (Hᵀ *ᵥ z))
    rw [quad_shift_expand P hP.1 x (Hᵀ *ᵥ z) 1 1, hc1, hc2] at key0
    have hzz : 0 ≤ z ⬝ᵥ z := dot_self_nonneg z
    rw [Matrix.sub_mulVec, Matrix.dotProduct_sub, hxN]
    linarith

/-- The inverse of a positive semidefinite rational matrix is positive
semidefinite (it is `0` when the matrix is singular). -/
theorem psd_inv {k : ℕ} (A : Matrix (Fin k) (Fin k) ℚ) (hA : PSDM A) :
    PSDM A⁻¹ := by
  by_cases hu : IsUnit A.det
  · constructor
    · rw [Matrix.transpose_nonsing_inv, hA.1]
    · intro x
      have hx : A *ᵥ (A⁻¹ *ᵥ x) = x := by
        rw [Matrix.mulVec_mulVec, Matrix.mul_nonsing_inv _ hu,
          Matrix.one_mulVec]
      calc 0 ≤ (A⁻¹ *ᵥ x) ⬝ᵥ (A *ᵥ (A⁻¹ *ᵥ x)) := hA.2 _
        _ = x ⬝ᵥ (A⁻¹ *ᵥ x) := by
            rw [hx]
            exact Matrix.dotProduct_comm _ _
  · rw [Matrix.nonsing_inv_apply_not_isUnit _ hu]
    exact ⟨Matrix.transpose_zero, fun x => by simp⟩

/-- `ratInv` preserves positive semidefiniteness. -/
theorem psd_ratInv {k : ℕ} (A : Matrix (Fin k) (Fin k) ℚ) (hA : PSDM A) :
    PSDM (ratInv A) := by
  rw [ratInv_eq_inv]
  exact psd_inv A hA

/-- The identity matrix is positive semidefinite. -/
theorem psd_one {k : ℕ} : PSDM (1 : Matrix (Fin k) (Fin k) ℚ) := by
  refine ⟨Matrix.transpose_one, fun x => ?_⟩
  rw [Matrix.one_mulVec]
  exact dot_self_nonneg x

/-- C5: `P` is symmetric after `init_phase`, and both the batch-mode and the
sample-mode `seq_phase` updates map a symmetric `P` to a symmetric `P`; the
`pinv` routine is assumed to map symmetric matrices to symmetric matrices (a
Moore-Penrose property of `torch.linalg.pinv`). -/
theorem C5_p_symmetric {di m n k : ℕ}
    (pinvm : Matrix (Fin m) (Fin m) ℚ → Matrix (Fin m) (Fin m) ℚ)
    (pinvn : Matrix (Fin n) (Fin n) ℚ → Matrix (Fin n) (Fin n) ℚ)
    (act : ℚ → ℚ) (s : AdaptAE di m)
    (hm : ∀ A : Matrix (Fin m) (Fin m) ℚ, Aᵀ = A → (pinvm A)ᵀ = pinvm A)
    (hn : ∀ A : Matrix (Fin n) (Fin n) ℚ, Aᵀ = A → (pinvn A)ᵀ = pinvn A)
    (initData : Matrix (Fin k) (Fin di) ℚ)
    (X : Matrix (Fin n) (Fin di) ℚ)
    (rdata : Matrix (Fin 1) (Fin di) ℚ)
    (hsym : s.pᵀ = s.p) :
    ((s.init_phase pinvm act initData).1.pᵀ
        = (s.init_phase pinvm act initData).1.p) ∧
    ((s.seq_phase_batch pinvn act X).1.pᵀ
        = (s.seq_phase_batch pinvn act X).1.p) ∧
    ((s.seq_phase_sample act rdata).1.pᵀ
        = (s.seq_phase_sample act rdata).1.p) := by
  refine ⟨?_, ?_, ?_⟩
  · exact hm _ (gram_psd (s.hidden act initData)).1
  · show (s.p - s.p * (s.hidden act X)ᵀ
        * pinvn (s.hidden act X * (s.p * (s.hidden act X)ᵀ) + 1)
        * (s.hidden act X * s.p))ᵀ = _
    set H := s.hidden act X
    have hSsym : (H * (s.p * Hᵀ) + 1)ᵀ = H * (s.p * Hᵀ) + 1 := by
      rw [Matrix.transpose_add, Matrix.transpose_one]
      simp only [Matrix.transpose_mul, Matrix.transpose_transpose, hsym]
      rw [Matrix.mul_assoc]
    have hKsym := hn _ hSsym
    have hNsym : (s.p * Hᵀ * pinvn (H * (s.p * Hᵀ) + 1) * (H * s.p))ᵀ
        = s.p * Hᵀ * pinvn (H * (s.p * Hᵀ) + 1) * (H * s.p) := by
      simp only [Matrix.transpose_mul, Matrix.transpose_transpose, hsym,
        hKsym]
      simp [Matrix.mul_assoc]
    rw [Matrix.transpose_sub, hsym, hNsym]
    rfl
  · show ((s.calc_p_sample (s.hidden act rdata)ᵀ).p)ᵀ = _
    rw [calc_p_sample_p]
    set u := (s.hidden act rdata)ᵀ
    have hNsym : (s.p * u * uᵀ * s.p)ᵀ = s.p * u * uᵀ * s.p := by
      simp only [Matrix.transpose_mul, Matrix.transpose_transpose, hsym]
      simp [Matrix.mul_assoc]
    rw [Matrix.transpose_sub, Matrix.transpose_smul, hsym, hNsym]
    exact (calc_p_sample_p s _).symm

/-- Witness for C5 with `pinv` the identity function (which preserves
symmetry) and the identity matrix as a symmetric `P`. -/
theorem C5_p_symmetric_witness :
    ((((AdaptAE.mk 0 0 1 0 : AdaptAE 1 1)).init_phase
        (fun A => A) (fun x => x) (0 : Matrix (Fin 1) (Fin 1) ℚ)).1.pᵀ
      = (((AdaptAE.mk 0 0 1 0 : AdaptAE 1 1)).init_phase
        (fun A => A) (fun x => x) (0 : Matrix (Fin 1) (Fin 1) ℚ)).1.p) ∧
    ((((AdaptAE.mk 0 0 1 0 : AdaptAE 1 1)).seq_phase_batch
        (fun A => A) (fun x => x) (0 : Matrix (Fin 1) (Fin 1) ℚ)).1.pᵀ
      = (((AdaptAE.mk 0 0 1 0 : AdaptAE 1 1)).seq_phase_batch
        (fun A => A) (fun x => x) (0 : Matrix (Fin 1) (Fin 1) ℚ)).1.p) ∧
    ((((AdaptAE.mk 0 0 1 0 : AdaptAE 1 1)).seq_phase_sample
        (fun x => x) (0 : Matrix (Fin 1) (Fin 1) ℚ)).1.pᵀ
      = (((AdaptAE.mk 0 0 1 0 : AdaptAE 1 1)).seq_phase_sample
        (fun x => x) (0 : Matrix (Fin 1) (Fin 1) ℚ)).1.p) :=
  C5_p_symmetric (fun A => A) (fun A => A) (fun x => x)
    (AdaptAE.mk 0 0 1 0) (fun _ h => h) (fun _ h => h) 0 0 0
    Matrix.transpose_one

/-- C10: for symmetric positive semidefinite `P` the sample-mode divisor
`1 + Hᵀ P H` is at least `1` (so the division is never by zero);
positive semidefiniteness is established by `init_phase` (`P = pinv(Hᵀ H)`,
with `pinv` preserving positive semidefiniteness, a Moore-Penrose property)
and preserved by the sample-mode update and by the batch-mode update (whose
matrix `H P Hᵀ + I` is invertible, where `pinv` agrees with the true
inverse). -/
theorem C10_denominator_and_psd {di m n : ℕ}
    (pinvm : Matrix (Fin m) (Fin m) ℚ → Matrix (Fin m) (Fin m) ℚ)
    (pinvn : Matrix (Fin n) (Fin n) ℚ → Matrix (Fin n) (Fin n) ℚ)
    (act : ℚ → ℚ) (s : AdaptAE di m)
    (hpm : ∀ A : Matrix (Fin m) (Fin m) ℚ, PSDM A → PSDM (pinvm A))
    (hpn : ∀ A : Matrix (Fin n) (Fin n) ℚ, IsUnit A.det → pinvn A = A⁻¹)
    (hP : PSDM s.p)
    (u : Matrix (Fin m) (Fin 1) ℚ)
    (initData : Matrix (Fin n) (Fin di) ℚ)
    (X : Matrix (Fin n) (Fin di) ℚ)
    (rdata : Matrix (Fin 1) (Fin di) ℚ) :
    1 ≤ ((1 + uᵀ * (s.p * u) : Matrix (Fin 1) (Fin 1) ℚ) 0 0) ∧
    PSDM (s.init_phase pinvm act initData).1.p ∧
    PSDM (s.seq_phase_sample act rdata).1.p ∧
    PSDM (s.seq_phase_batch pinvn act X).1.p := by
  refine ⟨?_, ?_, ?_, ?_⟩
  · rw [one_add_entry, quad_entry]
    have := hP.2 (colv u)
    linarith
  · exact hpm _ (gram_psd (s.hidden act initData))
  · show PSDM (s.calc_p_sample (s.hidden act rdata)ᵀ).p
    rw [calc_p_sample_p]
    exact sample_update_psd s.p (s.hidden act rdata)ᵀ hP
  · show PSDM (s.p - s.p * (s.hidden act X)ᵀ
      * pinvn (s.hidden act X * (s.p * (s.hidden act X)ᵀ) + 1)
      * (s.hidden act X * s.p))
    rw [hpn _ (unit_det_S s.p (s.hidden act X) hP)]
    exact batch_update_psd s.p (s.hidden act X) hP
      (unit_det_S s.p (s.hidden act X) hP)

/-- Witness for C10 with `pinv := ratInv` (which preserves positive
semidefiniteness and agrees with the true inverse on invertible matrices)
and the identity matrix as `P`. -/
theorem C10_denominator_and_psd_witness :
    1 ≤ ((1 + (1 : Matrix (Fin 1) (Fin 1) ℚ)ᵀ
        * (((AdaptAE.mk 0 0 1 0 : AdaptAE 1 1)).p
          * (1 : Matrix (Fin 1) (Fin 1) ℚ)) : Matrix (Fin 1) (Fin 1) ℚ)
        0 0) ∧
    PSDM (((AdaptAE.mk 0 0 1 0 : AdaptAE 1 1)).init_phase
        ratInv (fun x => x) (0 : Matrix (Fin 1) (Fin 1) ℚ)).1.p ∧
    PSDM (((AdaptAE.mk 0 0 1 0 : AdaptAE 1 1)).seq_phase_sample
        (fun x => x) (0 : Matrix (Fin 1) (Fin 1) ℚ)).1.p ∧
    PSDM (((AdaptAE.mk 0 0 1 0 : AdaptAE 1 1)).seq_phase_batch
        ratInv (fun x => x) (0 : Matrix (Fin 1) (Fin 1) ℚ)).1.p :=
  C10_denominator_and_psd ratInv ratInv (fun x => x) (AdaptAE.mk 0 0 1 0)
    psd_ratInv (fun A _ => ratInv_eq_inv A) psd_one 1 0 0 0

/-- Extensionality for the static model state. -/
theorem AdaptAE.ext_state {di m : ℕ} {s t : AdaptAE di m}
    (h1 : s.alpha = t.alpha) (h2 : s.bias = t.bias) (h3 : s.p = t.p)
    (h4 : s.beta = t.beta) : s = t := by
  cases s
  cases t
  simp_all

/-- C2: starting from one common state, `seq_phase` in batch mode on the
one-row batch `[x]` and `seq_phase` in sample mode on `x` produce the same
state and the same returned `Beta`: the Sherman-Morrison sample update is
the `n = 1` specialization of the Woodbury batch update.  The `pinv`
hypotheses are the Moore-Penrose facts for `1 × 1` matrices: `pinv` of an
invertible matrix is its inverse and `pinv 0 = 0`. -/
theorem C2_single_row_equiv {di m : ℕ}
    (pinv : Matrix (Fin 1) (Fin 1) ℚ → Matrix (Fin 1) (Fin 1) ℚ)
    (act : ℚ → ℚ) (s : AdaptAE di m) (x : Matrix (Fin 1) (Fin di) ℚ)
    (hpinv : ∀ A : Matrix (Fin 1) (Fin 1) ℚ, IsUnit A.det → pinv A = A⁻¹)
    (h0 : pinv 0 = 0) :
    s.seq_phase_batch pinv act x = s.seq_phase_sample act x := by
  set H := s.hidden act x with hH
  set c := (H * (s.p * Hᵀ)) 0 0 with hc
  have hbp : (s.seq_phase_batch pinv act x).1.p
      = s.p - s.p * Hᵀ * pinv (H * (s.p * Hᵀ) + 1) * (H * s.p) := rfl
  have hsp : (s.seq_phase_sample act x).1.p
      = s.p - (1 + c)⁻¹ • (s.p * Hᵀ * H * s.p) := by
    show (s.calc_p_sample Hᵀ).p = _
    rw [calc_p_sample_p, Matrix.transpose_transpose]
  have hA : ((H * (s.p * Hᵀ) + 1 : Matrix (Fin 1) (Fin 1) ℚ) 0 0)
      = c + 1 := by
    simp [Matrix.add_apply, hc]
  have hp : (s.seq_phase_batch pinv act x).1.p
      = (s.seq_phase_sample act x).1.p := by
    rw [hbp, hsp]
    by_cases hzero : c + 1 = 0
    · have hA0 : H * (s.p * Hᵀ) + 1 = 0 := by
        rw [one_one_eq_smul_one (H * (s.p * Hᵀ) + 1), hA, hzero, zero_smul]
      rw [hA0, h0, Matrix.mul_zero, Matrix.zero_mul, sub_zero]
      have h1c : (1 : ℚ) + c = 0 := by linarith
      rw [h1c]
      simp
    · have hunit : IsUnit (H * (s.p * Hᵀ) + 1).det := by
        rw [Matrix.det_fin_one, hA, isUnit_iff_ne_zero]
        exact hzero
      rw [hpinv _ hunit, Matrix.inv_def, Ring.inverse_eq_inv,
        Matrix.det_fin_one, Matrix.adjugate_fin_one, hA]
      rw [Matrix.mul_smul, Matrix.mul_one, Matrix.smul_mul]
      rw [show (c + 1 : ℚ)⁻¹ = (1 + c)⁻¹ by rw [add_comm]]
      rw [Matrix.mul_assoc (s.p * Hᵀ) H s.p]
  have hst : (s.seq_phase_batch pinv act x).1
      = (s.seq_phase_sample act x).1 := by
    refine AdaptAE.ext_state rfl rfl hp ?_
    show s.beta + (s.seq_phase_batch pinv act x).1.p * Hᵀ * (x - H * s.beta)
        = s.beta + (s.seq_phase_sample act x).1.p * Hᵀ
            * (x - Hᵀᵀ * s.beta)
    rw [hp, Matrix.transpose_transpose]
  show ((s.seq_phase_batch pinv act x).1,
      (s.seq_phase_batch pinv act x).1.beta)
    = ((s.seq_phase_sample act x).1, (s.seq_phase_sample act x).1.beta)
  rw [hst]

/-- Witness for C2 with `pinv := ratInv` at a concrete state and row. -/
theorem C2_single_row_equiv_witness :
    ((AdaptAE.mk 0 0 1 0 : AdaptAE 1 1)).seq_phase_batch
        ratInv (fun t => t) (0 : Matrix (Fin 1) (Fin 1) ℚ)
      = ((AdaptAE.mk 0 0 1 0 : AdaptAE 1 1)).seq_phase_sample
        (fun t => t) (0 : Matrix (Fin 1) (Fin 1) ℚ) :=
  C2_single_row_equiv ratInv (fun t => t) (AdaptAE.mk 0 0 1 0) 0
    (fun A _ => ratInv_eq_inv A)
    (by simp [ratInv, Matrix.det_fin_one])

/-! ### Sequential decomposition machinery (C1) -/

/-- Accumulated Gram matrix `Σ hᵢᵀ hᵢ` of the hidden rows of a list of
one-row batches. -/
def gramC {di m : ℕ} (act : ℚ → ℚ) (alpha : Matrix (Fin di) (Fin m) ℚ)
    (bias : Fin m → ℚ) (L : List (Matrix (Fin 1) (Fin di) ℚ)) :
    Matrix (Fin m) (Fin m) ℚ :=
  (L.map (fun r =>
    (hiddenMap act alpha bias r)ᵀ * hiddenMap act alpha bias r)).sum

/-- Accumulated cross matrix `Σ hᵢᵀ xᵢ` of hidden rows against data rows. -/
def gramA {di m : ℕ} (act : ℚ → ℚ) (alpha : Matrix (Fin di) (Fin m) ℚ)
    (bias : Fin m → ℚ) (L : List (Matrix (Fin 1) (Fin di) ℚ)) :
    Matrix (Fin m) (Fin di) ℚ :=
  (L.map (fun r => (hiddenMap act alpha bias r)ᵀ * r)).sum

theorem gramC_nil {di m : ℕ} (act : ℚ → ℚ)
    (alpha : Matrix (Fin di) (Fin m) ℚ) (bias : Fin m → ℚ) :
    gramC act alpha bias [] = 0 := rfl

theorem gramA_nil {di m : ℕ} (act : ℚ → ℚ)
    (alpha : Matrix (Fin di) (Fin m) ℚ) (bias : Fin m → ℚ) :
    gramA act alpha bias [] = 0 := rfl

theorem gramC_append {di m : ℕ} (act : ℚ → ℚ)
    (alpha : Matrix (Fin di) (Fin m) ℚ) (bias : Fin m → ℚ)
    (L : List (Matrix (Fin 1) (Fin di) ℚ)) (r : Matrix (Fin 1) (Fin di) ℚ) :
    gramC act alpha bias (L ++ [r]) = gramC act alpha bias L
      + (hiddenMap act alpha bias r)ᵀ * hiddenMap act alpha bias r := by
  simp [gramC]

theorem gramA_append {di m : ℕ} (act : ℚ → ℚ)
    (alpha : Matrix (Fin di) (Fin m) ℚ) (bias : Fin m → ℚ)
    (L : List (Matrix (Fin 1) (Fin di) ℚ)) (r : Matrix (Fin 1) (Fin di) ℚ) :
    gramA act alpha bias (L ++ [r]) = gramA act alpha bias L
      + (hiddenMap act alpha bias r)ᵀ * r := by
  simp [gramA]

/-- The quadratic form of a Gram matrix is the squared norm of the image. -/
theorem gram_quad_eq {n k : ℕ} (H : Matrix (Fin n) (Fin k) ℚ)
    (x : Fin k → ℚ) :
    x ⬝ᵥ ((Hᵀ * H) *ᵥ x) = (H *ᵥ x) ⬝ᵥ (H *ᵥ x) := by
  have e1 : (Hᵀ * H) *ᵥ x = Hᵀ *ᵥ (H *ᵥ x) :=
    (Matrix.mulVec_mulVec x Hᵀ H).symm
  rw [e1, Matrix.dotProduct_comm, dot_shift H (H *ᵥ x) x,
    Matrix.dotProduct_comm]

/-- A vector in the kernel of a Gram quadratic form is in the kernel of the
Gram matrix. -/
theorem gram_term_null {n k : ℕ} (H : Matrix (Fin n) (Fin k) ℚ)
    (x : Fin k → ℚ) (hx : x ⬝ᵥ ((Hᵀ * H) *ᵥ x) = 0) :
    (Hᵀ * H) *ᵥ x = 0 := by
  rw [gram_quad_eq] at hx
  have h0 : H *ᵥ x = 0 := Matrix.dotProduct_self_eq_zero.mp hx
  rw [← Matrix.mulVec_mulVec, h0, Matrix.mulVec_zero]

/-- The accumulated Gram matrix has a nonnegative quadratic form. -/
theorem gramC_quad_nonneg {di m : ℕ} (act : ℚ → ℚ)
    (alpha : Matrix (Fin di) (Fin m) ℚ) (bias : Fin m → ℚ)
    (L : List (Matrix (Fin 1) (Fin di) ℚ)) (x : Fin m → ℚ) :
    0 ≤ x ⬝ᵥ (gramC act alpha bias L *ᵥ x) := by
  induction L with
  | nil => simp [gramC]
  | cons r L ih =>
    have hsum : gramC act alpha bias (r :: L)
        = (hiddenMap act alpha bias r)ᵀ * hiddenMap act alpha bias r
          + gramC act alpha bias L := by
      simp [gramC]
    rw [hsum, Matrix.add_mulVec, Matrix.dotProduct_add]
    have h1 := (gram_psd (hiddenMap act alpha bias r)).2 x
    linarith

/-- A vector annihilating the accumulated Gram quadratic form is in the
kernel of the accumulated Gram matrix. -/
theorem gramC_null {di m : ℕ} (act : ℚ → ℚ)
    (alpha : Matrix (Fin di) (Fin m) ℚ) (bias : Fin m → ℚ)
    (L : List (Matrix (Fin 1) (Fin di) ℚ)) (x : Fin m → ℚ)
    (hx : x ⬝ᵥ (gramC act alpha bias L *ᵥ x) = 0) :
    gramC act alpha bias L *ᵥ x = 0 := by
  induction L with
  | nil => simp [gramC]
  | cons r L ih =>
    have hsum : gramC act alpha bias (r :: L)
        = (hiddenMap act alpha bias r)ᵀ * hiddenMap act alpha bias r
          + gramC act alpha bias L := by
      simp [gramC]
    rw [hsum, Matrix.add_mulVec, Matrix.dotProduct_add] at hx
    have h1 := (gram_psd (hiddenMap act alpha bias r)).2 x
    have h2 := gramC_quad_nonneg act alpha bias L x
    have hz1 : x ⬝ᵥ (((hiddenMap act alpha bias r)ᵀ
        * hiddenMap act alpha bias r) *ᵥ x) = 0 := by linarith
    have hz2 : x ⬝ᵥ (gramC act alpha bias L *ᵥ x) = 0 := by linarith
    rw [hsum, Matrix.add_mulVec, gram_term_null _ _ hz1, ih hz2, add_zero]

/-- For positive semidefinite `P` and a Gram-like `C`, the matrix
`I + P C` is invertible. -/
theorem unit_one_add_mul {k : ℕ} (P C : Matrix (Fin k) (Fin k) ℚ)
    (hP : PSDM P) (hCq : ∀ x, 0 ≤ x ⬝ᵥ (C *ᵥ x))
    (hCnull : ∀ x, x ⬝ᵥ (C *ᵥ x) = 0 → C *ᵥ x = 0) :
    IsUnit (1 + P * C).det := by
  rw [isUnit_iff_ne_zero]
  intro hdet
  obtain ⟨v, hv0, hvz⟩ := Matrix.exists_mulVec_eq_zero_iff.mpr hdet
  have hv : v + P *ᵥ (C *ᵥ v) = 0 := by
    rw [Matrix.add_mulVec, Matrix.one_mulVec, ← Matrix.mulVec_mulVec] at hvz
    exact hvz
  have hveq : v = -(P *ᵥ (C *ᵥ v)) := eq_neg_of_add_eq_zero_left hv
  have hq : v ⬝ᵥ (C *ᵥ v) = -((C *ᵥ v) ⬝ᵥ (P *ᵥ (C *ᵥ v))) := by
    nth_rewrite 1 [hveq]
    rw [Matrix.neg_dotProduct, Matrix.dotProduct_comm]
  have h1 : 0 ≤ v ⬝ᵥ (C *ᵥ v) := hCq v
  have h2 : 0 ≤ (C *ᵥ v) ⬝ᵥ (P *ᵥ (C *ᵥ v)) := hP.2 _
  have h3 : v ⬝ᵥ (C *ᵥ v) = 0 := by linarith
  have h4 : C *ᵥ v = 0 := hCnull v h3
  refine hv0 ?_
  rw [hveq, h4, Matrix.mulVec_zero, neg_zero]

/-- Folding the sample-mode update over a list of one-row batches. -/
def sampleFold {di m : ℕ} (act : ℚ → ℚ) (s : AdaptAE di m)
    (L : List (Matrix (Fin 1) (Fin di) ℚ)) : AdaptAE di m :=
  L.foldl (fun t r => (t.seq_phase_sample act r).1) s

theorem sampleFold_append {di m : ℕ} (act : ℚ → ℚ) (s : AdaptAE di m)
    (L : List (Matrix (Fin 1) (Fin di) ℚ)) (r : Matrix (Fin 1) (Fin di) ℚ) :
    sampleFold act s (L ++ [r])
      = ((sampleFold act s L).seq_phase_sample act r).1 := by
  simp [sampleFold]

theorem seq_phase_sample_alpha {di m : ℕ} (act : ℚ → ℚ) (s : AdaptAE di m)
    (r : Matrix (Fin 1) (Fin di) ℚ) :
    (s.seq_phase_sample act r).1.alpha = s.alpha := rfl

theorem seq_phase_sample_bias {di m : ℕ} (act : ℚ → ℚ) (s : AdaptAE di m)
    (r : Matrix (Fin 1) (Fin di) ℚ) :
    (s.seq_phase_sample act r).1.bias = s.bias := rfl

theorem seq_phase_sample_p {di m : ℕ} (act : ℚ → ℚ) (s : AdaptAE di m)
    (r : Matrix (Fin 1) (Fin di) ℚ) :
    (s.seq_phase_sample act r).1.p
      = (s.calc_p_sample (s.hidden act r)ᵀ).p := rfl

theorem seq_phase_sample_beta {di m : ℕ} (act : ℚ → ℚ) (s : AdaptAE di m)
    (r : Matrix (Fin 1) (Fin di) ℚ) :
    (s.seq_phase_sample act r).1.beta
      = s.beta + (s.calc_p_sample (s.hidden act r)ᵀ).p
          * (s.hidden act r)ᵀ * (r - (s.hidden act r)ᵀᵀ * s.beta) := rfl

/-- Invariant of the sample-mode fold: starting from a state with positive
semidefinite `P₀`, after processing the rows `L` in order the projection
weights are unchanged, `1 + P₀ C` is invertible for the accumulated Gram
matrix `C`, the precision matrix satisfies `(1 + P₀ C) P = P₀` and stays
positive semidefinite, and `Beta = B₀ + P (A − C B₀)` for the accumulated
cross matrix `A`. -/
theorem sample_fold_invariant {di m : ℕ} (act : ℚ → ℚ)
    (alpha : Matrix (Fin di) (Fin m) ℚ) (bias : Fin m → ℚ)
    (P0 : Matrix (Fin m) (Fin m) ℚ) (B0 : Matrix (Fin m) (Fin di) ℚ)
    (hP0 : PSDM P0) (L : List (Matrix (Fin 1) (Fin di) ℚ)) :
    (sampleFold act (AdaptAE.mk alpha bias P0 B0) L).alpha = alpha ∧
    (sampleFold act (AdaptAE.mk alpha bias P0 B0) L).bias = bias ∧
    IsUnit (1 + P0 * gramC act alpha bias L).det ∧
    (1 + P0 * gramC act alpha bias L)
        * (sampleFold act (AdaptAE.mk alpha bias P0 B0) L).p = P0 ∧
    PSDM (sampleFold act (AdaptAE.mk alpha bias P0 B0) L).p ∧
    (sampleFold act (AdaptAE.mk alpha bias P0 B0) L).beta
      = B0 + (sampleFold act (AdaptAE.mk alpha bias P0 B0) L).p
          * (gramA act alpha bias L - gramC act alpha bias L * B0) := by
  induction L using List.reverseRecOn with
  | nil =>
    refine ⟨rfl, rfl, ?_, ?_, hP0, ?_⟩
    · rw [gramC_nil, Matrix.mul_zero, add_zero, Matrix.det_one]
      exact isUnit_one
    · rw [gramC_nil, Matrix.mul_zero, add_zero, Matrix.one_mul]
      rfl
    · rw [gramC_nil, gramA_nil, Matrix.zero_mul, sub_zero, Matrix.mul_zero,
        add_zero]
      rfl
  | append_singleton L r ih =>
    obtain ⟨ihα, ihβ, ihU, ihE, ihPSD, ihB⟩ := ih
    set sL := sampleFold act (AdaptAE.mk alpha bias P0 B0) L with hsL
    set hr := hiddenMap act alpha bias r with hhr
    set C := gramC act alpha bias L with hC
    set A := gramA act alpha bias L with hA
    have hhid : sL.hidden act r = hr := by
      rw [AdaptAE.hidden, ihα, ihβ]
    have hCapp : gramC act alpha bias (L ++ [r]) = C + hrᵀ * hr :=
      gramC_append act alpha bias L r
    have hAapp : gramA act alpha bias (L ++ [r]) = A + hrᵀ * r :=
      gramA_append act alpha bias L r
    have hfold := sampleFold_append act (AdaptAE.mk alpha bias P0 B0) L r
    -- the new precision matrix in closed form
    set dd := 1 + (hr * (sL.p * hrᵀ)) 0 0 with hdd
    have hquad : (hr * (sL.p * hrᵀ)) 0 0
        = colv hrᵀ ⬝ᵥ (sL.p *ᵥ colv hrᵀ) := by
      have h0 := quad_entry sL.p hrᵀ
      rw [Matrix.transpose_transpose] at h0
      exact h0
    have hdd1 : 1 ≤ dd := by
      rw [hdd, hquad]
      have := ihPSD.2 (colv hrᵀ)
      linarith
    have hddne : dd ≠ 0 := by positivity
    have hpnew : (sampleFold act (AdaptAE.mk alpha bias P0 B0) (L ++ [r])).p
        = sL.p - dd⁻¹ • (sL.p * hrᵀ * hr * sL.p) := by
      rw [hfold, seq_phase_sample_p, hhid, calc_p_sample_p,
        Matrix.transpose_transpose]
    have hmid : hr * (sL.p * hrᵀ) = (dd - 1) • 1 := by
      rw [one_one_eq_smul_one (hr * (sL.p * hrᵀ))]
      congr 1
      rw [hdd]
      ring
    -- the three product computations
    have hMassoc : sL.p * hrᵀ * hr * sL.p
        = sL.p * (hrᵀ * (hr * sL.p)) := by
      rw [Matrix.mul_assoc, Matrix.mul_assoc]
    have h1 : (1 + P0 * C) * (sL.p * hrᵀ * hr * sL.p)
        = P0 * hrᵀ * hr * sL.p := by
      rw [hMassoc, ← Matrix.mul_assoc, ihE, ← Matrix.mul_assoc,
        ← Matrix.mul_assoc]
    have f1 : hr * (sL.p * hrᵀ * hr * sL.p) = (dd - 1) • (hr * sL.p) := by
      rw [show sL.p * hrᵀ * hr * sL.p = sL.p * hrᵀ * (hr * sL.p) from
        Matrix.mul_assoc _ _ _]
      rw [← Matrix.mul_assoc, hmid, Matrix.smul_mul, Matrix.one_mul]
    have h2 : P0 * (hrᵀ * hr) * (sL.p * hrᵀ * hr * sL.p)
        = (dd - 1) • (P0 * hrᵀ * hr * sL.p) := by
      rw [Matrix.mul_assoc P0 (hrᵀ * hr) _, Matrix.mul_assoc hrᵀ hr _, f1,
        Matrix.mul_smul, Matrix.mul_smul]
      congr 1
      rw [← Matrix.mul_assoc, ← Matrix.mul_assoc]
    have hGsum : P0 * hrᵀ * hr * sL.p
          + (dd - 1) • (P0 * hrᵀ * hr * sL.p)
        = dd • (P0 * hrᵀ * hr * sL.p) := by
      nth_rewrite 1 [← one_smul ℚ (P0 * hrᵀ * hr * sL.p)]
      rw [← add_smul]
      congr 1
      ring
    have hGP : P0 * (hrᵀ * hr) * sL.p = P0 * hrᵀ * hr * sL.p := by
      rw [← Matrix.mul_assoc]
    -- the product identity for the extended list
    have hEnew : (1 + P0 * gramC act alpha bias (L ++ [r]))
        * (sampleFold act (AdaptAE.mk alpha bias P0 B0) (L ++ [r])).p
        = P0 := by
      rw [hCapp, hpnew, Matrix.mul_sub, Matrix.mul_smul]
      rw [show (1 : Matrix (Fin m) (Fin m) ℚ) + P0 * (C + hrᵀ * hr)
          = 1 + P0 * C + P0 * (hrᵀ * hr) from by
        rw [Matrix.mul_add, add_assoc]]
      rw [Matrix.add_mul (1 + P0 * C) (P0 * (hrᵀ * hr)) sL.p,
        Matrix.add_mul (1 + P0 * C) (P0 * (hrᵀ * hr))
          (sL.p * hrᵀ * hr * sL.p),
        ihE, h1, h2, hGP, hGsum, smul_smul, inv_mul_cancel₀ hddne,
        one_smul, add_sub_cancel_right]
    refine ⟨?_, ?_, ?_, hEnew, ?_, ?_⟩
    · rw [hfold, seq_phase_sample_alpha, ihα]
    · rw [hfold, seq_phase_sample_bias, ihβ]
    · rw [hCapp]
      exact unit_one_add_mul P0 (C + hrᵀ * hr) hP0
        (by rw [hC, ← gramC_append]
            exact gramC_quad_nonneg act alpha bias (L ++ [r]))
        (by rw [hC, ← gramC_append]
            exact gramC_null act alpha bias (L ++ [r]))
    · rw [hpnew]
      have := sample_update_psd sL.p hrᵀ ihPSD
      rw [Matrix.transpose_transpose] at this
      exact this
    · -- the Beta invariant
      set P' := (sampleFold act (AdaptAE.mk alpha bias P0 B0) (L ++ [r])).p
        with hP'
      have hMr : sL.p * hrᵀ * hr * sL.p * hrᵀ = (dd - 1) • (sL.p * hrᵀ) := by
        rw [show sL.p * hrᵀ * hr * sL.p = sL.p * hrᵀ * (hr * sL.p) from
          Matrix.mul_assoc _ _ _]
        rw [Matrix.mul_assoc (sL.p * hrᵀ) (hr * sL.p) hrᵀ,
          Matrix.mul_assoc hr sL.p hrᵀ, hmid, Matrix.mul_smul,
          Matrix.mul_one]
      have hPhr : P' * hrᵀ = dd⁻¹ • (sL.p * hrᵀ) := by
        rw [hpnew, Matrix.sub_mul, Matrix.smul_mul, hMr, smul_smul]
        nth_rewrite 1 [← one_smul ℚ (sL.p * hrᵀ)]
        rw [← sub_smul]
        congr 1
        field_simp
      have hkey : P' = sL.p - P' * hrᵀ * hr * sL.p := by
        have hsub : P' * hrᵀ * hr * sL.p
            = dd⁻¹ • (sL.p * hrᵀ * hr * sL.p) := by
          rw [hPhr, Matrix.smul_mul, Matrix.smul_mul]
        rw [hsub]
        exact hpnew
      have hpp : (sL.calc_p_sample hrᵀ).p = P' := by
        rw [hP', hfold, seq_phase_sample_p, hhid]
      have hbnew : (sampleFold act (AdaptAE.mk alpha bias P0 B0)
            (L ++ [r])).beta
          = sL.beta + P' * hrᵀ * (r - hr * sL.beta) := by
        rw [hfold, seq_phase_sample_beta, hhid, Matrix.transpose_transpose,
          hpp]
      set W := A - C * B0 with hW
      have a1 : P' * hrᵀ * r = P' * (hrᵀ * r) := Matrix.mul_assoc _ _ _
      have a2 : P' * hrᵀ * (hr * B0) = P' * (hrᵀ * (hr * B0)) :=
        Matrix.mul_assoc _ _ _
      have a3 : P' * hrᵀ * (hr * (sL.p * W))
          = P' * hrᵀ * hr * sL.p * W := by
        rw [Matrix.mul_assoc (P' * hrᵀ * hr) sL.p W,
          Matrix.mul_assoc (P' * hrᵀ) hr (sL.p * W)]
      have lhs_eq : (sampleFold act (AdaptAE.mk alpha bias P0 B0)
            (L ++ [r])).beta
          = B0 + sL.p * W + (P' * (hrᵀ * r) - P' * (hrᵀ * (hr * B0))
              - P' * hrᵀ * hr * sL.p * W) := by
        rw [hbnew, ihB]
        rw [Matrix.mul_add hr B0 (sL.p * W)]
        rw [show r - (hr * B0 + hr * (sL.p * W))
            = r - hr * B0 - hr * (sL.p * W) from by abel]
        rw [Matrix.mul_sub (P' * hrᵀ) (r - hr * B0) (hr * (sL.p * W))]
        rw [Matrix.mul_sub (P' * hrᵀ) r (hr * B0)]
        rw [a1, a2, a3]
      have rhs_eq : B0 + P' * (gramA act alpha bias (L ++ [r])
            - gramC act alpha bias (L ++ [r]) * B0)
          = B0 + P' * W + (P' * (hrᵀ * r) - P' * (hrᵀ * (hr * B0))) := by
        rw [hAapp, hCapp]
        rw [Matrix.add_mul C (hrᵀ * hr) B0]
        rw [show A + hrᵀ * r - (C * B0 + hrᵀ * hr * B0)
            = W + (hrᵀ * r - hrᵀ * hr * B0) from by rw [hW]; abel]
        rw [Matrix.mul_add P' W (hrᵀ * r - hrᵀ * hr * B0)]
        rw [Matrix.mul_sub P' (hrᵀ * r) (hrᵀ * hr * B0)]
        rw [show hrᵀ * hr * B0 = hrᵀ * (hr * B0) from Matrix.mul_assoc _ _ _]
        abel
      have i3 : sL.p * W - P' * hrᵀ * hr * sL.p * W = P' * W := by
        rw [← Matrix.sub_mul, ← hkey]
      rw [lhs_eq, rhs_eq]
      calc B0 + sL.p * W + (P' * (hrᵀ * r) - P' * (hrᵀ * (hr * B0))
              - P' * hrᵀ * hr * sL.p * W)
          = B0 + (sL.p * W - P' * hrᵀ * hr * sL.p * W)
              + (P' * (hrᵀ * r) - P' * (hrᵀ * (hr * B0))) := by abel
        _ = B0 + P' * W + (P' * (hrᵀ * r) - P' * (hrᵀ * (hr * B0))) := by
            rw [i3]

/-- The batch-mode update satisfies the same product identity
`(1 + P (Hᵀ H)) P_new = P` as the sample-mode fold, together with the
`Beta` formula in accumulated form, when the `n × n` pseudoinverse is a
true inverse of the invertible `H P Hᵀ + I`. -/
theorem batch_product_identity {di m n : ℕ}
    (pinv : Matrix (Fin n) (Fin n) ℚ → Matrix (Fin n) (Fin n) ℚ)
    (act : ℚ → ℚ) (s : AdaptAE di m) (X : Matrix (Fin n) (Fin di) ℚ)
    (hP : PSDM s.p)
    (hpinv : ∀ A : Matrix (Fin n) (Fin n) ℚ, IsUnit A.det → pinv A = A⁻¹) :
    (1 + s.p * ((s.hidden act X)ᵀ * s.hidden act X))
        * (s.seq_phase_batch pinv act X).1.p = s.p ∧
    (s.seq_phase_batch pinv act X).1.beta
      = s.beta + (s.seq_phase_batch pinv act X).1.p
          * ((s.hidden act X)ᵀ * X
              - (s.hidden act X)ᵀ * s.hidden act X * s.beta) := by
  set H := s.hidden act X with hHdef
  set P := s.p with hPdef
  have hU : IsUnit (H * (P * Hᵀ) + 1).det := unit_det_S P H hP
  set S := H * (P * Hᵀ) + 1 with hSdef
  set K := S⁻¹ with hKdef
  have hpb : (s.seq_phase_batch pinv act X).1.p
      = P - P * Hᵀ * K * (H * P) := by
    show P - P * Hᵀ * pinv S * (H * P) = _
    rw [hpinv S hU]
  have hS1 : H * (P * Hᵀ) = S - 1 := by
    rw [hSdef, add_sub_cancel_right]
  have hSK : (S - 1) * K = 1 - K := by
    rw [Matrix.sub_mul, Matrix.one_mul, hKdef,
      Matrix.mul_nonsing_inv _ hU]
  have hHN : H * (P * Hᵀ * K * (H * P)) = H * P - K * (H * P) := by
    rw [← Matrix.mul_assoc, ← Matrix.mul_assoc, ← Matrix.mul_assoc, hS1]
    rw [hSK, Matrix.sub_mul, Matrix.one_mul, Matrix.sub_mul,
      Matrix.mul_assoc K H P]
  constructor
  · rw [hpb, Matrix.mul_sub]
    rw [Matrix.add_mul 1 (P * (Hᵀ * H)) P,
      Matrix.add_mul 1 (P * (Hᵀ * H)) (P * Hᵀ * K * (H * P)),
      Matrix.one_mul, Matrix.one_mul]
    have e1 : P * (Hᵀ * H) * P = P * (Hᵀ * (H * P)) := by
      rw [Matrix.mul_assoc P (Hᵀ * H) P, Matrix.mul_assoc Hᵀ H P]
    have e2 : P * (Hᵀ * H) * (P * Hᵀ * K * (H * P))
        = P * (Hᵀ * (H * P)) - P * (Hᵀ * (K * (H * P))) := by
      rw [Matrix.mul_assoc P (Hᵀ * H) _, Matrix.mul_assoc Hᵀ H _, hHN,
        Matrix.mul_sub Hᵀ, Matrix.mul_sub P]
    have e3 : P * Hᵀ * K * (H * P) = P * (Hᵀ * (K * (H * P))) := by
      rw [Matrix.mul_assoc (P * Hᵀ) K (H * P), Matrix.mul_assoc P Hᵀ _]
    rw [e1, e2, e3]
    abel
  · show s.beta + (s.seq_phase_batch pinv act X).1.p * Hᵀ * (X - H * s.beta)
        = _
    have e4 : (s.seq_phase_batch pinv act X).1.p * Hᵀ * (X - H * s.beta)
        = (s.seq_phase_batch pinv act X).1.p
            * (Hᵀ * X - Hᵀ * H * s.beta) := by
      rw [Matrix.mul_assoc, Matrix.mul_sub Hᵀ X (H * s.beta),
        Matrix.mul_assoc Hᵀ H s.beta]
    rw [e4]

/-- The hidden representation of a single extracted row is the extracted
row of the hidden representation of the stacked batch. -/
theorem hidden_row {di m n : ℕ} (act : ℚ → ℚ)
    (alpha : Matrix (Fin di) (Fin m) ℚ) (bias : Fin m → ℚ)
    (X : Matrix (Fin n) (Fin di) ℚ) (i : Fin n) :
    hiddenMap act alpha bias (AdaptAE.row X i)
      = AdaptAE.row (hiddenMap act alpha bias X) i := by
  ext c j
  simp [hiddenMap, AdaptAE.row, Matrix.mul_apply]

/-- The accumulated Gram matrix of the rows of `X` is `Hᵀ H` for the
stacked hidden matrix `H`. -/
theorem gramC_rows {di m n : ℕ} (act : ℚ → ℚ)
    (alpha : Matrix (Fin di) (Fin m) ℚ) (bias : Fin m → ℚ)
    (X : Matrix (Fin n) (Fin di) ℚ) :
    gramC act alpha bias ((List.finRange n).map (AdaptAE.row X))
      = (hiddenMap act alpha bias X)ᵀ * hiddenMap act alpha bias X := by
  set H := hiddenMap act alpha bias X with hH
  rw [gramC, List.map_map]
  have hfun : ((fun r => (hiddenMap act alpha bias r)ᵀ
        * hiddenMap act alpha bias r) ∘ AdaptAE.row X)
      = fun i => (AdaptAE.row H i)ᵀ * AdaptAE.row H i := by
    funext i
    simp only [Function.comp_apply, hidden_row, hH]
  rw [hfun, ← Fin.sum_univ_def]
  ext j l
  rw [Matrix.sum_apply, Matrix.mul_apply]
  refine Finset.sum_congr rfl fun i _ => ?_
  rw [Matrix.mul_apply, Fin.sum_univ_one]
  simp [AdaptAE.row]

/-- The accumulated cross matrix of the rows of `X` is `Hᵀ X`. -/
theorem gramA_rows {di m n : ℕ} (act : ℚ → ℚ)
    (alpha : Matrix (Fin di) (Fin m) ℚ) (bias : Fin m → ℚ)
    (X : Matrix (Fin n) (Fin di) ℚ) :
    gramA act alpha bias ((List.finRange n).map (AdaptAE.row X))
      = (hiddenMap act alpha bias X)ᵀ * X := by
  set H := hiddenMap act alpha bias X with hH
  rw [gramA, List.map_map]
  have hfun : ((fun r => (hiddenMap act alpha bias r)ᵀ * r)
        ∘ AdaptAE.row X)
      = fun i => (AdaptAE.row H i)ᵀ * AdaptAE.row X i := by
    funext i
    simp only [Function.comp_apply, hidden_row, hH]
  rw [hfun, ← Fin.sum_univ_def]
  ext j l
  rw [Matrix.sum_apply, Matrix.mul_apply]
  refine Finset.sum_congr rfl fun i _ => ?_
  rw [Matrix.mul_apply, Fin.sum_univ_one]
  simp [AdaptAE.row]

/-- C1: starting from any state produced by `init_phase`, applying
`seq_phase` in sample mode to the rows `x1, ..., xn` of `X` one at a time,
in order, yields exactly the same final state — the same `P` and the same
`Beta` — as applying `seq_phase` in batch mode once to the stacked matrix
`X`.  The hypotheses are the Moore-Penrose facts used: `pinv` preserves
positive semidefiniteness (giving positive semidefiniteness of the
initial `P = pinv(Hᵀ H)`), and `pinv` agrees with the true inverse on
invertible matrices (applied to the batch matrix `H P Hᵀ + I`, which is
invertible along the run). -/
theorem C1_sequential_decomposition {di m n k : ℕ}
    (pinvm : Matrix (Fin m) (Fin m) ℚ → Matrix (Fin m) (Fin m) ℚ)
    (pinvn : Matrix (Fin n) (Fin n) ℚ → Matrix (Fin n) (Fin n) ℚ)
    (act : ℚ → ℚ)
    (hpsd : ∀ A : Matrix (Fin m) (Fin m) ℚ, PSDM A → PSDM (pinvm A))
    (hinv : ∀ A : Matrix (Fin n) (Fin n) ℚ, IsUnit A.det → pinvn A = A⁻¹)
    (s0 : AdaptAE di m) (initData : Matrix (Fin k) (Fin di) ℚ)
    (X : Matrix (Fin n) (Fin di) ℚ) :
    AdaptAE.seq_phase_sample_run act (s0.init_phase pinvm act initData).1 X
      = ((s0.init_phase pinvm act initData).1.seq_phase_batch
          pinvn act X).1 := by
  set s1 := (s0.init_phase pinvm act initData).1 with hs1
  have hPSD : PSDM s1.p := by
    show PSDM (pinvm ((s0.hidden act initData)ᵀ * s0.hidden act initData))
    exact hpsd _ (gram_psd _)
  obtain ⟨hbP, hbB⟩ := batch_product_identity pinvn act s1 X hPSD hinv
  have hrun : AdaptAE.seq_phase_sample_run act s1 X
      = sampleFold act s1 ((List.finRange n).map (AdaptAE.row X)) := rfl
  have hmk : AdaptAE.mk s1.alpha s1.bias s1.p s1.beta = s1 := rfl
  have hinva := sample_fold_invariant act s1.alpha s1.bias s1.p s1.beta
    hPSD ((List.finRange n).map (AdaptAE.row X))
  rw [hmk] at hinva
  obtain ⟨hα, hβ, hU, hE, _, hB⟩ := hinva
  have hHm : hiddenMap act s1.alpha s1.bias X = s1.hidden act X := rfl
  have hCr := gramC_rows act s1.alpha s1.bias X
  have hAr := gramA_rows act s1.alpha s1.bias X
  rw [hHm] at hCr hAr
  rw [hCr] at hU hE hB
  rw [hAr] at hB
  set L := (List.finRange n).map (AdaptAE.row X) with hL
  set E := 1 + s1.p * ((s1.hidden act X)ᵀ * s1.hidden act X) with hEdef
  have hpeq : (sampleFold act s1 L).p
      = (s1.seq_phase_batch pinvn act X).1.p := by
    have h2 : E * (sampleFold act s1 L).p
        = E * (s1.seq_phase_batch pinvn act X).1.p := by
      rw [hE, hbP]
    calc (sampleFold act s1 L).p
        = 1 * (sampleFold act s1 L).p := (Matrix.one_mul _).symm
      _ = (E⁻¹ * E) * (sampleFold act s1 L).p := by
          rw [Matrix.nonsing_inv_mul E hU]
      _ = E⁻¹ * (E * (sampleFold act s1 L).p) := Matrix.mul_assoc _ _ _
      _ = E⁻¹ * (E * (s1.seq_phase_batch pinvn act X).1.p) := by rw [h2]
      _ = (E⁻¹ * E) * (s1.seq_phase_batch pinvn act X).1.p :=
          (Matrix.mul_assoc _ _ _).symm
      _ = 1 * (s1.seq_phase_batch pinvn act X).1.p := by
          rw [Matrix.nonsing_inv_mul E hU]
      _ = (s1.seq_phase_batch pinvn act X).1.p := Matrix.one_mul _
  rw [hrun]
  refine AdaptAE.ext_state ?_ ?_ hpeq ?_
  · rw [hα]
    rfl
  · rw [hβ]
    rfl
  · rw [hB, hbB, hpeq]

/-- Witness for C1 at size one: with `pinv := ratInv` (which preserves
positive semidefiniteness and agrees with `⁻¹` on invertible matrices),
the identity activation, a zero initial model and zero data, the
row-by-row sample run equals the single batch call. -/
theorem C1_sequential_decomposition_witness :
    AdaptAE.seq_phase_sample_run (fun t => t)
        ((AdaptAE.mk (0 : Matrix (Fin 1) (Fin 1) ℚ) 0 0 0).init_phase
          ratInv (fun t => t) (0 : Matrix (Fin 1) (Fin 1) ℚ)).1
        (0 : Matrix (Fin 1) (Fin 1) ℚ)
      = (((AdaptAE.mk (0 : Matrix (Fin 1) (Fin 1) ℚ) 0 0 0).init_phase
          ratInv (fun t => t) (0 : Matrix (Fin 1) (Fin 1) ℚ)).1.seq_phase_batch
          ratInv (fun t => t) (0 : Matrix (Fin 1) (Fin 1) ℚ)).1 :=
  C1_sequential_decomposition ratInv ratInv (fun t => t)
    (fun A hA => psd_ratInv A hA)
    (fun A _ => ratInv_eq_inv A)
    (AdaptAE.mk 0 0 0 0) 0 0
